import Mathlib

/-!
# Verification of the multilevel cache and booking-system cores

Shallow embedding of the Python sources under `multilevel-cache-design/`
(`eviction_strategy.py`, `cache_level.py`, `multilevel_cache.py`) and
`restaurant-booking-system-design/` (`models.py`, `booking_system.py`),
together with proofs of the specified properties.

Python dictionaries are modelled as association lists (`List (κ × α)`),
which preserves the insertion order that `OrderedDict` buckets rely on.
Code paths on which Python raises an exception (`KeyError` from
`popitem`/indexing, `IndexError` from list indexing) are modelled by
returning `none` in an `Option`-valued result.
-/

set_option autoImplicit false
set_option linter.unusedSectionVars false

universe u v

namespace MLCacheSpec

variable {κ : Type u} {α : Type v} [DecidableEq κ]

/-- Lookup in an association list, Python `d[k]` / `d.get(k)`. -/
def alookup (k : κ) : List (κ × α) → Option α
  | [] => none
  | (k', v) :: t => if k = k' then some v else alookup k t

/-- Python `d[k] = v`: replace the binding in place if the key is present,
otherwise append the binding at the end (dicts preserve insertion order). -/
def aupsert (k : κ) (v : α) : List (κ × α) → List (κ × α)
  | [] => [(k, v)]
  | (k', v') :: t => if k = k' then (k, v) :: t else (k', v') :: aupsert k v t

/-- Python `del d[k]`: remove the (unique) binding of `k`, if any. -/
def aerase (k : κ) : List (κ × α) → List (κ × α)
  | [] => []
  | (k', v') :: t => if k = k' then t else (k', v') :: aerase k t

/-- The keys of an association list, in order. -/
def akeys (l : List (κ × α)) : List κ := l.map Prod.fst

/-! ## `eviction_strategy.py`: class `LFUStrategy`

State of one LFU policy instance.  `freq_keys` maps a frequency to the
`OrderedDict` of keys at that frequency, modelled as a `List String` in
insertion order (Python stores `None` values, only the key order matters).
-/

structure LFUStrategy where
  capacity : Nat
  key_value : List (String × String)
  key_freq : List (String × Nat)
  freq_keys : List (Nat × List String)
  min_freq : Nat
deriving Repr, DecidableEq

namespace LFUStrategy

/-- Python `LFUStrategy.__init__`. -/
def init (capacity : Nat) : LFUStrategy :=
  { capacity := capacity, key_value := [], key_freq := [], freq_keys := [], min_freq := 0 }

end LFUStrategy

namespace LFUStrategy

/-- Python `LFUStrategy._update_freq`.  Callers only invoke this with `key` present in
`key_value` (hence, by the representation invariant, in `key_freq` and in its
frequency's bucket); on such states the `.getD` defaults and the no-op list
erase below coincide with the Python dict operations. -/
def update_freq (key : String) (s : LFUStrategy) : LFUStrategy :=
  -- freq = self.key_freq[key]
  let freq := (alookup key s.key_freq).getD 0
  -- del self.freq_keys[freq][key]
  let b := (alookup freq s.freq_keys).getD []
  let b' := b.erase key
  -- if not self.freq_keys[freq]: del self.freq_keys[freq]; maybe bump min_freq
  let fk := if b' = [] then aerase freq s.freq_keys else aupsert freq b' s.freq_keys
  let mf := if b' = [] ∧ s.min_freq = freq then s.min_freq + 1 else s.min_freq
  -- self.key_freq[key] += 1; self.freq_keys[self.key_freq[key]][key] = None
  let nf := freq + 1
  let nb := (alookup nf fk).getD []
  let nb' := if key ∈ nb then nb else nb ++ [key]
  { s with
    key_freq := aupsert key nf s.key_freq
    freq_keys := aupsert nf nb' fk
    min_freq := mf }

end LFUStrategy

namespace LFUStrategy

/-- Python `LFUStrategy.get`. -/
def get (key : String) (s : LFUStrategy) : Option String × LFUStrategy :=
  match alookup key s.key_value with
  | none => (none, s)
  | some v => (some v, update_freq key s)

end LFUStrategy

namespace LFUStrategy

/-- Python `LFUStrategy.put`.  The outer `Option` is `none` exactly when Python
raises: `popitem(last=False)` on an empty minimum-frequency bucket, or the
`self.key_value[lfu_key]` lookup failing. -/
def put (key value : String) (s : LFUStrategy) :
    Option (Option (String × String) × LFUStrategy) :=
  -- Case 1: key already exists - update value and frequency
  if (alookup key s.key_value).isSome then
    some (none, update_freq key { s with key_value := aupsert key value s.key_value })
  else
    -- Case 2: key is new - check if cache is full
    let afterEvict : Option (Option (String × String) × LFUStrategy) :=
      if s.capacity ≤ s.key_value.length then
        -- lfu_key, _ = self.freq_keys[self.min_freq].popitem(last=False)
        match (alookup s.min_freq s.freq_keys).getD [] with
        | [] => none
        | lfu_key :: rest =>
          match alookup lfu_key s.key_value with
          | none => none
          | some w =>
            some (some (lfu_key, w),
              { s with
                key_value := aerase lfu_key s.key_value
                key_freq := aerase lfu_key s.key_freq
                freq_keys :=
                  if rest = [] then aerase s.min_freq s.freq_keys
                  else aupsert s.min_freq rest s.freq_keys })
      else
        some (none, s)
    match afterEvict with
    | none => none
    | some (evicted, s₁) =>
      -- unconditional insert at frequency 1
      let b₁ := (alookup 1 s₁.freq_keys).getD []
      let b₁' := if key ∈ b₁ then b₁ else b₁ ++ [key]
      some (evicted,
        { s₁ with
          key_value := aupsert key value s₁.key_value
          key_freq := aupsert key 1 s₁.key_freq
          freq_keys := aupsert 1 b₁' s₁.freq_keys
          min_freq := 1 })

end LFUStrategy

namespace LFUStrategy

/-- Python `LFUStrategy.delete`. -/
def delete (key : String) (s : LFUStrategy) : LFUStrategy :=
  match alookup key s.key_value with
  | none => s
  | some _ =>
    let freq := (alookup key s.key_freq).getD 0
    let kv := aerase key s.key_value
    let kf := aerase key s.key_freq
    let b := (alookup freq s.freq_keys).getD []
    let b' := b.erase key
    if b' = [] then
      -- del self.freq_keys[freq]; min_freq = min(self.freq_keys.keys(), default=0)
      let fk := aerase freq s.freq_keys
      let mf :=
        if s.min_freq = freq then
          match akeys fk with
          | [] => 0
          | f :: fs => fs.foldl min f
        else s.min_freq
      { s with key_value := kv, key_freq := kf, freq_keys := fk, min_freq := mf }
    else
      { s with key_value := kv, key_freq := kf, freq_keys := aupsert freq b' s.freq_keys }

end LFUStrategy

/-- Run a sequence of `put` operations, collecting the eviction reports
(`none` if any `put` raises). -/
def runPuts : List (String × String) → LFUStrategy →
    Option (List (Option (String × String)) × LFUStrategy)
  | [], s => some ([], s)
  | (k, v) :: t, s =>
    match LFUStrategy.put k v s with
    | none => none
    | some (ev, s') =>
      match runPuts t s' with
      | none => none
      | some (evs, s'') => some (ev :: evs, s'')

/-- The value of the last pair in `ops` writing key `k`, if any. -/
def lastWritten (k : String) : List (String × String) → Option String
  | [] => none
  | (k', v) :: t =>
    match lastWritten k t with
    | some w => some w
    | none => if k' = k then some v else none

/-- Number of distinct keys in `ops` outside the already-present domain `d`. -/
def newKeys (d : List String) : List (String × String) → Nat
  | [] => 0
  | (k, _) :: t => if k ∈ d then newKeys d t else 1 + newKeys (k :: d) t

/-! ## `cache_level.py`: class `CacheLevel`

`CacheLevel` holds one eviction-strategy instance and forwards
`get`/`put`/`delete` verbatim to it (`strategy_cls` is `LFUStrategy`, the only
concrete strategy in the repository), so a level is identified with its
strategy state. -/

abbrev CacheLevel := LFUStrategy

/-! ## `multilevel_cache.py`: class `MultiLevelCache` -/

structure MultiLevelCache where
  levels : List CacheLevel
  max_levels : Nat
  capacities : List Nat
deriving Repr, DecidableEq

namespace MultiLevelCache

/-- Python `MultiLevelCache.__init__`; `none` models the `IndexError` on
`capacities[0]` when the capacities list is empty. -/
def init (max_levels : Nat) (capacities : List Nat) : Option MultiLevelCache :=
  match capacities with
  | [] => none
  | c :: _ =>
    some { levels := [LFUStrategy.init c], max_levels := max_levels, capacities := capacities }

end MultiLevelCache

namespace MultiLevelCache

/-- The `for level in self.levels` loop of `MultiLevelCache.write`: put the
entry into the first level, cascading each eviction into the next level, and
stop as soon as a level reports no eviction.  Returns the eviction left over
after the last existing level together with the updated levels. -/
def cascade : String × String → List CacheLevel →
    Option (Option (String × String) × List CacheLevel)
  | e, [] => some (some e, [])
  | e, l :: ls =>
    match LFUStrategy.put e.1 e.2 l with
    | none => none
    | some (none, l') => some (none, l' :: ls)
    | some (some e', l') =>
      match cascade e' ls with
      | none => none
      | some (ev, ls') => some (ev, l' :: ls')

end MultiLevelCache

namespace MultiLevelCache

/-- Python `MultiLevelCache.write`; `none` models a raised `KeyError`/`IndexError`
(the `IndexError` comes from `self.capacities[len(self.levels)]`). -/
def write (key value : String) (s : MultiLevelCache) : Option MultiLevelCache :=
  match cascade (key, value) s.levels with
  | none => none
  | some (none, ls) => some { s with levels := ls }
  | some (some e, ls) =>
    if ls.length < s.max_levels then
      match s.capacities.get? ls.length with
      | none => none
      | some c =>
        match LFUStrategy.put e.1 e.2 (LFUStrategy.init c) with
        | none => none
        | some (_, nl) => some { s with levels := ls ++ [nl] }
    else
      some { s with levels := ls }

end MultiLevelCache

namespace MultiLevelCache

/-- The `for i, level in enumerate(self.levels)` loop of
`MultiLevelCache.read`: find the first level containing the key, returning its
index, the value, and the levels after that level's `get` updated its
frequency bookkeeping (a miss leaves a level unchanged). -/
def findHit (key : String) : List CacheLevel → Option (Nat × String × List CacheLevel)
  | [] => none
  | l :: ls =>
    match LFUStrategy.get key l with
    | (some v, l') => some (0, v, l' :: ls)
    | (none, _) =>
      match findHit key ls with
      | none => none
      | some (i, v, ls') => some (i + 1, v, l :: ls')

end MultiLevelCache

namespace MultiLevelCache

/-- Python `MultiLevelCache.read`. -/
def read (key : String) (s : MultiLevelCache) : Option (Option String × MultiLevelCache) :=
  match findHit key s.levels with
  | none => some (none, s)
  | some (i, v, ls) =>
    let s' := { s with levels := ls }
    if i = 0 then some (some v, s')
    else
      match write key v s' with
      | none => none
      | some s'' => some (some v, s'')

end MultiLevelCache

namespace MultiLevelCache

/-- Python `MultiLevelCache.delete`. -/
def delete (key : String) (s : MultiLevelCache) : MultiLevelCache :=
  { s with levels := s.levels.map (LFUStrategy.delete key) }

end MultiLevelCache

/-- One cache operation, for stating properties of operation sequences. -/
inductive MLOp where
  | write (key value : String)
  | read (key : String)
  | delete (key : String)
deriving Repr, DecidableEq

/-- Run a sequence of operations on a multilevel cache (read results are
discarded; `none` if any step raises). -/
def runOps : List MLOp → MultiLevelCache → Option MultiLevelCache
  | [], s => some s
  | MLOp.write k v :: t, s =>
    match MultiLevelCache.write k v s with
    | none => none
    | some s' => runOps t s'
  | MLOp.read k :: t, s =>
    match MultiLevelCache.read k s with
    | none => none
    | some (_, s') => runOps t s'
  | MLOp.delete k :: t, s => runOps t (MultiLevelCache.delete k s)

/-- The value stored for `key` in the fastest (lowest-index) level that
contains it. -/
def fastest (key : String) : List CacheLevel → Option String
  | [] => none
  | l :: ls =>
    match alookup key l.key_value with
    | some v => some v
    | none => fastest key ls

/-- Modelled from the spec: the reference store against which reads are
checked — `write` binds the key to the value, `delete` unbinds it, `read`
changes nothing, so a key is bound to the value of the most recent `write`
not followed by a `delete`. -/
def lastWriteStore : List MLOp → List (String × String) → List (String × String)
  | [], m => m
  | MLOp.write k v :: t, m => lastWriteStore t (aupsert k v m)
  | MLOp.read _ :: t, m => lastWriteStore t m
  | MLOp.delete k :: t, m => lastWriteStore t (aerase k m)

/-- The simulation invariant tying a multilevel cache state to the
`lastWriteStore` reference map: every value visible via `fastest` agrees with
the reference map (keys may have been dropped from the cache, so the
inclusion is one-directional). -/
def Agrees (m : List (String × String)) (s : MultiLevelCache) : Prop :=
  (∀ t ∈ s.levels, (akeys t.key_value).Nodup) ∧
  s.levels ≠ [] ∧
  (∀ k v, fastest k s.levels = some v → alookup k m = some v)

/-! ## The LFU representation invariant -/

/-- Representation invariant of an `LFUStrategy` state: the three maps are
genuine dictionaries (no duplicate keys), `key_value` and `key_freq` have the
same domain, every bucket is non-empty, duplicate-free, and lists exactly the
keys having its frequency, frequencies are positive, and `min_freq` is a
lower bound on all bucket frequencies and an existing bucket whenever the
store is non-empty. -/
structure LFUInv (s : LFUStrategy) : Prop where
  kv_nd : (akeys s.key_value).Nodup
  kf_nd : (akeys s.key_freq).Nodup
  fk_nd : (akeys s.freq_keys).Nodup
  dom : ∀ k, (alookup k s.key_value).isSome ↔ (alookup k s.key_freq).isSome
  b_ne : ∀ f b, alookup f s.freq_keys = some b → b ≠ []
  b_nd : ∀ f b, alookup f s.freq_keys = some b → b.Nodup
  b_freq : ∀ f b k, alookup f s.freq_keys = some b → k ∈ b → alookup k s.key_freq = some f
  f_b : ∀ k f, alookup k s.key_freq = some f → ∃ b, alookup f s.freq_keys = some b ∧ k ∈ b
  f_pos : ∀ k f, alookup k s.key_freq = some f → 1 ≤ f
  mf_le : ∀ f, (alookup f s.freq_keys).isSome → s.min_freq ≤ f
  mf_mem : s.key_value ≠ [] → (alookup s.min_freq s.freq_keys).isSome

/-- The clauses of `LFUInv` that do not mention `min_freq`; the intermediate
state of `put` between eviction and reinsertion satisfies these (its
`min_freq` is stale until the insert step overwrites it with 1). -/
structure LFUPreInv (s : LFUStrategy) : Prop where
  kv_nd : (akeys s.key_value).Nodup
  kf_nd : (akeys s.key_freq).Nodup
  fk_nd : (akeys s.freq_keys).Nodup
  dom : ∀ k, (alookup k s.key_value).isSome ↔ (alookup k s.key_freq).isSome
  b_ne : ∀ f b, alookup f s.freq_keys = some b → b ≠ []
  b_nd : ∀ f b, alookup f s.freq_keys = some b → b.Nodup
  b_freq : ∀ f b k, alookup f s.freq_keys = some b → k ∈ b → alookup k s.key_freq = some f
  f_b : ∀ k f, alookup k s.key_freq = some f → ∃ b, alookup f s.freq_keys = some b ∧ k ∈ b
  f_pos : ∀ k f, alookup k s.key_freq = some f → 1 ≤ f

/-- States reachable by the three operations from a fresh instance. -/
inductive ReachableLFU : LFUStrategy → Prop where
  | init (c : Nat) : ReachableLFU (LFUStrategy.init c)
  | get (k : String) {s : LFUStrategy} :
      ReachableLFU s → ReachableLFU (LFUStrategy.get k s).2
  | put (k v : String) {s : LFUStrategy} {ev : Option (String × String)}
      {s' : LFUStrategy} :
      ReachableLFU s → LFUStrategy.put k v s = some (ev, s') → ReachableLFU s'
  | del (k : String) {s : LFUStrategy} :
      ReachableLFU s → ReachableLFU (LFUStrategy.delete k s)

end MLCacheSpec

namespace BookingSpec

open MLCacheSpec (alookup aupsert aerase)

/-! ## `restaurant-booking-system-design`

Shallow embedding of `models.py` and `booking_system.py`.  A `datetime` is a
pair (day, time-of-day); `.date()` is the first component.  The embedding is
sequential, so the per-slot `threading.Lock` is modelled by the set of
currently held (venue, slot) locks in the system state, and contention is
modelled by the `acquire_ok` input: `acquire_ok = false` is the run in which
`slot_lock.acquire(timeout=5)` times out. -/

abbrev DateTime := Nat × Nat

/-- Python `errors.py` exception classes. -/
inductive BookingError where
  | bookingError (msg : String)
  | notFoundError (msg : String)
  | slotUnavailableError (msg : String)
  | validationError (msg : String)
deriving Repr, DecidableEq

/-- Python `models.Booking` (dataclass). -/
structure Booking where
  booking_id : String
  venue_id : String
  slot : DateTime
  num_people : Int
  user_id : String
  created_at : DateTime
deriving Repr, DecidableEq

/-- Python `models.Venue`.  The `meta` dict (`Dict[str, Any]`, used only by venue
search) is untyped in the source and not modelled; the lock objects live in
the system state. -/
structure Venue where
  id : String
  name : String
  city : String
  area : String
  venue_type : String
  availability : List (DateTime × Nat)
deriving Repr, DecidableEq

/-- Python `Venue.available_tables`. -/
def Venue.available_tables (slot_dt : DateTime) (v : Venue) : Nat :=
  (alookup slot_dt v.availability).getD 0

/-- Python `Venue.decrement_table_for_slot`. -/
def Venue.decrement_table_for_slot (slot_dt : DateTime) (v : Venue) :
    Except BookingError Venue :=
  match alookup slot_dt v.availability with
  | none => .error (.slotUnavailableError "Slot not registered")
  | some n =>
    if n ≤ 0 then .error (.slotUnavailableError "No tables available")
    else .ok { v with availability := aupsert slot_dt (n - 1) v.availability }

/-- Python `booking_system.BookingSystem` state. -/
structure BookingSystem where
  venues : List (String × Venue)
  bookings : List (String × Booking)
  booking_window_days : Nat
  held_locks : List (String × DateTime)
deriving Repr, DecidableEq

namespace BookingSystem

/-- Python `BookingSystem._is_within_booking_window` (`today` passed explicitly in
place of `date.today()`). -/
def is_within_booking_window (sys : BookingSystem) (today slot_date : Nat) : Bool :=
  today ≤ slot_date && slot_date ≤ today + sys.booking_window_days

end BookingSystem

namespace BookingSystem

/-- Python `BookingSystem.book_table`.  `new_id` stands for `str(uuid.uuid4())`,
`now` for `datetime.utcnow()`, and `acquire_ok` for the outcome of
`slot_lock.acquire(timeout=5)`.  The `try`/`finally` is modelled by running
the body and then releasing the slot lock on both the `.ok` and `.error`
result. -/
def book_table (sys : BookingSystem) (user_id venue_id : String) (slot_dt : DateTime)
    (num_people : Int) (today : Nat) (new_id : String) (now : DateTime)
    (acquire_ok : Bool) : Except BookingError Booking × BookingSystem :=
  if num_people ≤ 0 then
    (.error (.validationError "num_people must be > 0"), sys)
  else if ¬ sys.is_within_booking_window today slot_dt.1 then
    (.error (.validationError "Booking beyond allowed window"), sys)
  else
    match alookup venue_id sys.venues with
    | none => (.error (.notFoundError "Venue not found"), sys)
    | some venue =>
      if ¬ acquire_ok then
        (.error (.bookingError "Could not acquire lock, try again"), sys)
      else
        -- slot lock acquired
        let sys₁ := { sys with held_locks := (venue_id, slot_dt) :: sys.held_locks }
        let result : Except BookingError Booking × BookingSystem :=
          if venue.available_tables slot_dt ≤ 0 then
            (.error (.slotUnavailableError "No tables available"), sys₁)
          else
            match venue.decrement_table_for_slot slot_dt with
            | .error e => (.error e, sys₁)
            | .ok venue' =>
              let booking : Booking :=
                { booking_id := new_id, venue_id := venue_id, slot := slot_dt
                  num_people := num_people, user_id := user_id, created_at := now }
              (.ok booking,
                { sys₁ with
                  venues := aupsert venue_id venue' sys₁.venues
                  bookings := aupsert booking.booking_id booking sys₁.bookings })
        -- finally: slot_lock.release()
        (result.1, { result.2 with held_locks := result.2.held_locks.erase (venue_id, slot_dt) })

end BookingSystem

end BookingSpec

namespace MLCacheSpec

variable {κ : Type u} {α : Type v} [DecidableEq κ]

@[simp] theorem alookup_nil (k : κ) : alookup k ([] : List (κ × α)) = none := rfl

@[simp] theorem alookup_cons (k k' : κ) (v : α) (t : List (κ × α)) :
    alookup k ((k', v) :: t) = if k = k' then some v else alookup k t := rfl

@[simp] theorem aupsert_nil (k : κ) (v : α) : aupsert k v ([] : List (κ × α)) = [(k, v)] := rfl

@[simp] theorem aerase_nil (k : κ) : aerase k ([] : List (κ × α)) = [] := rfl

@[simp] theorem akeys_nil : akeys ([] : List (κ × α)) = [] := rfl

@[simp] theorem akeys_cons (p : κ × α) (t : List (κ × α)) :
    akeys (p :: t) = p.1 :: akeys t := rfl

theorem alookup_aupsert_self (k : κ) (v : α) (l : List (κ × α)) :
    alookup k (aupsert k v l) = some v := by
  induction l with
  | nil => simp [aupsert]
  | cons p t ih =>
    obtain ⟨k', v'⟩ := p
    by_cases h : k = k' <;> simp [aupsert, h, ih]

theorem alookup_aupsert_ne {k k' : κ} (h : k ≠ k') (v : α) (l : List (κ × α)) :
    alookup k (aupsert k' v l) = alookup k l := by
  induction l with
  | nil => simp [aupsert, h]
  | cons p t ih =>
    obtain ⟨k'', v''⟩ := p
    by_cases h' : k' = k'' <;> by_cases h'' : k = k'' <;>
      simp_all [aupsert]

theorem alookup_aerase_ne {k k' : κ} (h : k ≠ k') (l : List (κ × α)) :
    alookup k (aerase k' l) = alookup k l := by
  induction l with
  | nil => simp
  | cons p t ih =>
    obtain ⟨k'', v''⟩ := p
    by_cases h' : k' = k'' <;> by_cases h'' : k = k'' <;>
      simp_all [aerase]

theorem alookup_isSome_iff_mem_akeys (k : κ) (l : List (κ × α)) :
    (alookup k l).isSome ↔ k ∈ akeys l := by
  induction l with
  | nil => simp
  | cons p t ih =>
    obtain ⟨k', v'⟩ := p
    by_cases h : k = k' <;> simp [h, ih]

theorem alookup_eq_none_iff_not_mem_akeys (k : κ) (l : List (κ × α)) :
    alookup k l = none ↔ k ∉ akeys l := by
  rw [← alookup_isSome_iff_mem_akeys]
  cases alookup k l <;> simp

theorem mem_akeys_of_alookup (k : κ) (v : α) (l : List (κ × α))
    (h : alookup k l = some v) : k ∈ akeys l := by
  rw [← alookup_isSome_iff_mem_akeys, h]; rfl

theorem alookup_aerase_self {k : κ} {l : List (κ × α)} (h : (akeys l).Nodup) :
    alookup k (aerase k l) = none := by
  induction l with
  | nil => simp
  | cons p t ih =>
    obtain ⟨k', v'⟩ := p
    simp only [akeys_cons, List.nodup_cons] at h
    by_cases h' : k = k'
    · subst h'
      simpa [aerase, alookup_eq_none_iff_not_mem_akeys] using h.1
    · simp [aerase, h', ih h.2]

theorem akeys_aupsert_of_mem {k : κ} (v : α) {l : List (κ × α)} (h : k ∈ akeys l) :
    akeys (aupsert k v l) = akeys l := by
  induction l with
  | nil => simp at h
  | cons p t ih =>
    obtain ⟨k', v'⟩ := p
    by_cases h' : k = k'
    · simp [aupsert, h']
    · simp only [akeys_cons, List.mem_cons] at h
      rcases h with h | h

      · exact absurd h h'
      · simp [aupsert, h', ih h]

theorem aupsert_of_not_mem {k : κ} (v : α) {l : List (κ × α)} (h : k ∉ akeys l) :
    aupsert k v l = l ++ [(k, v)] := by
  induction l with
  | nil => simp
  | cons p t ih =>
    obtain ⟨k', v'⟩ := p
    simp only [akeys_cons, List.mem_cons, not_or] at h
    simp [aupsert, h.1, ih h.2]

theorem akeys_aupsert_nodup {k : κ} (v : α) {l : List (κ × α)}
    (h : (akeys l).Nodup) : (akeys (aupsert k v l)).Nodup := by
  by_cases hm : k ∈ akeys l
  · rwa [akeys_aupsert_of_mem v hm]
  · rw [aupsert_of_not_mem v hm]
    simp only [akeys, List.map_append]
    refine List.Nodup.append h (by simp) ?_
    intro x hx hxx
    simp only [List.map_cons, List.map_nil, List.mem_singleton] at hxx
    exact hm (hxx ▸ hx)

theorem akeys_aerase_sublist (k : κ) (l : List (κ × α)) :
    (akeys (aerase k l)).Sublist (akeys l) := by
  induction l with
  | nil => simp
  | cons p t ih =>
    obtain ⟨k', v'⟩ := p
    by_cases h : k = k'
    · simp only [aerase, if_pos h, akeys_cons]
      exact (List.sublist_cons_self _ _)
    · simp only [aerase, if_neg h, akeys_cons]
      exact ih.cons₂ _

theorem akeys_aerase_nodup (k : κ) {l : List (κ × α)} (h : (akeys l).Nodup) :
    (akeys (aerase k l)).Nodup :=
  (akeys_aerase_sublist k l).nodup h

theorem not_mem_akeys_aerase (k k' : κ) {l : List (κ × α)} (hk : k ∉ akeys l) :
    k ∉ akeys (aerase k' l) :=
  fun h => hk ((akeys_aerase_sublist k' l).mem h)

namespace LFUStrategy

@[simp] theorem update_freq_key_value (k : String) (s : LFUStrategy) :
    (update_freq k s).key_value = s.key_value := rfl

end LFUStrategy

namespace LFUStrategy

@[simp] theorem update_freq_capacity (k : String) (s : LFUStrategy) :
    (update_freq k s).capacity = s.capacity := rfl

end LFUStrategy

namespace LFUStrategy

theorem get_fst (k : String) (s : LFUStrategy) :
    (get k s).1 = alookup k s.key_value := by
  unfold get; split <;> simp_all

end LFUStrategy

namespace LFUStrategy

theorem get_snd_key_value (k : String) (s : LFUStrategy) :
    (get k s).2.key_value = s.key_value := by
  unfold get; split <;> simp_all

end LFUStrategy

namespace LFUStrategy

theorem get_snd_capacity (k : String) (s : LFUStrategy) :
    (get k s).2.capacity = s.capacity := by
  unfold get; split <;> simp_all

end LFUStrategy

namespace LFUStrategy

theorem put_present (k v w : String) (s : LFUStrategy)
    (h : alookup k s.key_value = some w) :
    ∃ s', put k v s = some (none, s') ∧
      s'.key_value = aupsert k v s.key_value ∧
      s'.capacity = s.capacity ∧
      (∀ f, alookup k s.key_freq = some f → alookup k s'.key_freq = some (f + 1)) := by
  have hs : put k v s =
      some (none, update_freq k { s with key_value := aupsert k v s.key_value }) := by
    unfold put
    rw [if_pos (by simp [h])]
  refine ⟨_, hs, by simp, by simp, ?_⟩
  intro f hf
  simp only [update_freq, hf, Option.getD_some]
  exact alookup_aupsert_self k (f + 1) _

end LFUStrategy

namespace LFUStrategy

theorem put_absent_notfull (k v : String) (s : LFUStrategy)
    (habs : alookup k s.key_value = none) (hroom : s.key_value.length < s.capacity) :
    ∃ s', put k v s = some (none, s') ∧
      s'.key_value = s.key_value ++ [(k, v)] ∧
      s'.capacity = s.capacity := by
  have hmem : k ∉ akeys s.key_value := by
    rwa [← alookup_eq_none_iff_not_mem_akeys]
  have hs : put k v s =
      some (none,
        { s with
          key_value := aupsert k v s.key_value
          key_freq := aupsert k 1 s.key_freq
          freq_keys := aupsert 1
            (let b₁ := (alookup 1 s.freq_keys).getD []
              if k ∈ b₁ then b₁ else b₁ ++ [k]) s.freq_keys
          min_freq := 1 }) := by
    unfold put
    rw [if_neg (by simp [habs]), if_neg (by omega)]
  refine ⟨_, hs, ?_, by simp⟩
  simpa using aupsert_of_not_mem v hmem

end LFUStrategy

namespace LFUStrategy

/-- Combined specification of a successful `put` at the level of the value
store: the written key is bound to the written value; a reported eviction
came from the store and is gone afterwards; all other keys are untouched;
key `Nodup` is preserved. -/
theorem put_spec (k v : String) (s : LFUStrategy) {ev : Option (String × String)}
    {s' : LFUStrategy} (h : put k v s = some (ev, s')) :
    s'.capacity = s.capacity ∧
    alookup k s'.key_value = some v ∧
    (∀ j w, ev = some (j, w) → alookup j s.key_value = some w ∧ j ≠ k ∧
        ((akeys s.key_value).Nodup → alookup j s'.key_value = none)) ∧
    (∀ k', k' ≠ k → (∀ j w, ev = some (j, w) → k' ≠ j) →
        alookup k' s'.key_value = alookup k' s.key_value) ∧
    ((akeys s.key_value).Nodup → (akeys s'.key_value).Nodup) := by
  unfold put at h
  split at h
  case isTrue hpres =>
    obtain ⟨w, hw⟩ := Option.isSome_iff_exists.mp hpres
    obtain ⟨rfl, rfl⟩ : ev = none ∧
        s' = update_freq k { s with key_value := aupsert k v s.key_value } := by
      simpa using h.symm
    refine ⟨rfl, ?_, by simp, ?_, ?_⟩
    · simp [alookup_aupsert_self]
    · intro k' hk' _
      simp [alookup_aupsert_ne hk']
    · intro hnd
      simpa using akeys_aupsert_nodup v hnd
  case isFalse habs =>
    rw [Option.not_isSome_iff_eq_none] at habs
    have hkmem : k ∉ akeys s.key_value := by
      rwa [← alookup_eq_none_iff_not_mem_akeys]
    split at h
    case isTrue hfull =>
      split at h
      case h_1 => exact absurd h (by simp)
      case h_2 lfu_key rest hb =>
        split at h
        case h_1 => exact absurd h (by simp)
        case h_2 w hw =>
          obtain ⟨rfl, rfl⟩ : ev = some (lfu_key, w) ∧
              s' = { s with
                key_value := aupsert k v (aerase lfu_key s.key_value)
                key_freq := aupsert k 1 (aerase lfu_key s.key_freq)
                freq_keys := aupsert 1
                  (let b₁ := (alookup 1 (if rest = [] then aerase s.min_freq s.freq_keys
                      else aupsert s.min_freq rest s.freq_keys)).getD []
                    if k ∈ b₁ then b₁ else b₁ ++ [k])
                  (if rest = [] then aerase s.min_freq s.freq_keys
                    else aupsert s.min_freq rest s.freq_keys)
                min_freq := 1 } := by
            simpa using h.symm

          have hlfu_ne : lfu_key ≠ k := by
            intro hEq
            rw [hEq, habs] at hw
            exact Option.noConfusion hw
          refine ⟨rfl, by simp [alookup_aupsert_self], ?_, ?_, ?_⟩
          · intro j w' hj
            obtain ⟨rfl, rfl⟩ : lfu_key = j ∧ w = w' := by
              simpa using hj
            refine ⟨hw, hlfu_ne, ?_⟩
            intro hnd
            simp only
            rw [alookup_aupsert_ne hlfu_ne, alookup_aerase_self hnd]
          · intro k' hk' hkev
            have hk'lfu : k' ≠ lfu_key := hkev lfu_key w rfl
            simp only
            rw [alookup_aupsert_ne hk', alookup_aerase_ne hk'lfu]
          · intro hnd
            simp only
            exact akeys_aupsert_nodup v (akeys_aerase_nodup lfu_key hnd)
    case isFalse hfull =>
      obtain ⟨rfl, rfl⟩ : ev = none ∧
          s' = { s with
            key_value := aupsert k v s.key_value
            key_freq := aupsert k 1 s.key_freq
            freq_keys := aupsert 1
              (let b₁ := (alookup 1 s.freq_keys).getD []
                if k ∈ b₁ then b₁ else b₁ ++ [k]) s.freq_keys
            min_freq := 1 } := by
        simpa using h.symm
      refine ⟨rfl, by simp [alookup_aupsert_self], by simp, ?_, ?_⟩
      · intro k' hk' _
        simp only
        rw [alookup_aupsert_ne hk']
      · intro hnd
        simp only
        exact akeys_aupsert_nodup v hnd

end LFUStrategy

@[simp] theorem fastest_nil (k : String) : fastest k [] = none := rfl

theorem fastest_cons_of_some {k : String} {t : CacheLevel} (ts : List CacheLevel)
    {v : String} (h : alookup k t.key_value = some v) :
    fastest k (t :: ts) = some v := by
  simp [fastest, h]

theorem fastest_cons_of_none {k : String} {t : CacheLevel} (ts : List CacheLevel)
    (h : alookup k t.key_value = none) :
    fastest k (t :: ts) = fastest k ts := by
  simp [fastest, h]

theorem fastest_cons_cases (k : String) (t : CacheLevel) (ts : List CacheLevel) {v : String} :
    fastest k (t :: ts) = some v →
      alookup k t.key_value = some v ∨
      (alookup k t.key_value = none ∧ fastest k ts = some v) := by
  intro h
  cases hl : alookup k t.key_value with
  | none => right; rw [fastest_cons_of_none ts hl] at h; exact ⟨rfl, h⟩
  | some w =>
    left
    rw [fastest_cons_of_some ts hl] at h
    exact h

theorem fastest_append (k : String) (l₁ l₂ : List CacheLevel) :
    fastest k (l₁ ++ l₂) =
      match fastest k l₁ with
      | some v => some v
      | none => fastest k l₂ := by
  induction l₁ with
  | nil => simp
  | cons t ts ih =>
    cases hl : alookup k t.key_value with
    | none =>
      rw [List.cons_append, fastest_cons_of_none (ts ++ l₂) hl,
        fastest_cons_of_none ts hl, ih]
    | some v =>
      rw [List.cons_append, fastest_cons_of_some (ts ++ l₂) hl,
        fastest_cons_of_some ts hl]

namespace MultiLevelCache

/-- Behaviour of the cascading `put` loop of `write` on the value stores:
the written entry ends up in the first level; every key visible afterwards
was either the written entry or already visible at the same value; the
entry evicted from the last level, if it is visible nowhere afterwards, was
either the written entry or visible before.  Also preserves level count and
per-level key `Nodup`. -/
theorem cascade_spec (e : String × String) (ts : List CacheLevel)
    {ev : Option (String × String)} {ts' : List CacheLevel}
    (h : cascade e ts = some (ev, ts'))
    (hnd : ∀ t ∈ ts, (akeys t.key_value).Nodup) :
    ts'.length = ts.length ∧
    (∀ t ∈ ts', (akeys t.key_value).Nodup) ∧
    (∀ k v, fastest k ts' = some v → (k = e.1 ∧ v = e.2) ∨ fastest k ts = some v) ∧
    (∀ j w, ev = some (j, w) → fastest j ts' = none →
        ((j, w) = e ∨ fastest j ts = some w)) ∧
    (ts ≠ [] → fastest e.1 ts' = some e.2) := by
  induction ts generalizing e ev ts' with
  | nil =>
    obtain ⟨rfl, rfl⟩ : some e = ev ∧ [] = ts' := by
      simpa [cascade] using h
    refine ⟨rfl, by simp, by simp, ?_, by simp⟩
    intro j w hjw _
    left
    simpa [eq_comm] using hjw
  | cons t rest ih =>
    rw [cascade] at h
    cases hp : LFUStrategy.put e.1 e.2 t with
    | none => rw [hp] at h; exact absurd h (by simp)
    | some pr =>
      obtain ⟨ev₁, t'⟩ := pr
      rw [hp] at h
      obtain ⟨-, hself, hev, hother, hndp⟩ := LFUStrategy.put_spec e.1 e.2 t hp
      have hndt := hnd t (by simp)
      have hndrest : ∀ u ∈ rest, (akeys u.key_value).Nodup :=
        fun u hu => hnd u (List.mem_cons_of_mem _ hu)
      cases ev₁ with
      | none =>
        obtain ⟨rfl, rfl⟩ : (none : Option (String × String)) = ev ∧ t' :: rest = ts' := by
          simpa using h
        refine ⟨by simp, ?_, ?_, by simp, ?_⟩
        · intro u hu
          rcases List.mem_cons.mp hu with rfl | hu
          · exact hndp hndt
          · exact hndrest u hu
        · intro k v hf
          rcases fastest_cons_cases k t' rest hf with hl | ⟨hl, hrest⟩
          · by_cases hk : k = e.1
            · subst hk
              rw [hself] at hl
              exact Or.inl ⟨rfl, (Option.some_inj.mp hl).symm⟩
            · right
              rw [hother k hk (by simp)] at hl
              exact fastest_cons_of_some rest hl
          · by_cases hk : k = e.1
            · subst hk; rw [hself] at hl; exact absurd hl (by simp)
            · right
              rw [hother k hk (by simp)] at hl
              rw [fastest_cons_of_none rest hl]
              exact hrest
        · intro _
          exact fastest_cons_of_some rest hself
      | some e' =>
        dsimp only at h
        cases hc : cascade e' rest with
        | none => rw [hc] at h; exact absurd h (by simp)
        | some pr₂ =>
          obtain ⟨ev₂, rest'⟩ := pr₂
          rw [hc] at h
          obtain ⟨rfl, rfl⟩ : ev₂ = ev ∧ t' :: rest' = ts' := by
            simpa using h
          obtain ⟨hlen, hndr', hA, hB, hC⟩ := ih e' hc hndrest
          obtain ⟨hjold, hjne, hjgone⟩ := hev e'.1 e'.2 (by simp)
          have hjgone' := hjgone hndt
          have hne_arg : ∀ x : String, x ≠ e'.1 →
              ∀ j' w', some e' = some (j', w') → x ≠ j' := by
            intro x hx j' w' hjw
            injection hjw with hjw
            rw [hjw] at hx
            exact hx
          refine ⟨by simpa using hlen, ?_, ?_, ?_, ?_⟩
          · intro u hu
            rcases List.mem_cons.mp hu with rfl | hu
            · exact hndp hndt
            · exact hndr' u hu
          · -- clause (A)
            intro k v hf
            rcases fastest_cons_cases k t' rest' hf with hl | ⟨hl, hrest⟩
            · by_cases hk : k = e.1
              · subst hk
                rw [hself] at hl
                exact Or.inl ⟨rfl, (Option.some_inj.mp hl).symm⟩
              · by_cases hk' : k = e'.1
                · subst hk'; rw [hjgone'] at hl; exact absurd hl (by simp)
                · right
                  rw [hother k hk (hne_arg k hk')] at hl
                  exact fastest_cons_of_some rest hl
            · by_cases hk : k = e.1
              · subst hk; rw [hself] at hl; exact absurd hl (by simp)
              · by_cases hk' : k = e'.1
                · subst hk'
                  rcases eq_or_ne rest [] with rfl | hrne
                  · have hre : rest' = [] := by simpa using hlen
                    rw [hre] at hrest
                    exact absurd hrest (by simp)
                  · have hcv := hC hrne
                    rw [hrest] at hcv
                    right
                    rw [fastest_cons_of_some rest hjold]
                    rw [Option.some_inj.mp hcv]
                · right
                  rw [hother k hk (hne_arg k hk')] at hl
                  rw [fastest_cons_of_none rest hl]
                  rcases hA k v hrest with ⟨rfl, _⟩ | hr
                  · exact absurd rfl hk'
                  · exact hr
          · -- clause (B)
            intro j w hevj hnone
            cases hlj : alookup j t'.key_value with
            | some u => rw [fastest_cons_of_some rest' hlj] at hnone; exact absurd hnone (by simp)
            | none =>
              rw [fastest_cons_of_none rest' hlj] at hnone
              have hjne1 : j ≠ e.1 := by
                intro hj; subst hj; rw [hself] at hlj; exact Option.noConfusion hlj
              rcases hB j w hevj hnone with hje' | hfr
              · -- the cascaded entry into `rest` is the final eviction
                right
                have h1 : alookup j t.key_value = some w := by
                  have hj1 : j = e'.1 := by rw [← hje']
                  have hw1 : w = e'.2 := by rw [← hje']
                  rw [hj1, hw1]; exact hjold
                exact fastest_cons_of_some rest h1
              · by_cases hk' : j = e'.1
                · subst hk'
                  rcases eq_or_ne rest [] with rfl | hrne
                  · simp at hfr
                  · have hcv := hC hrne
                    rw [hcv] at hnone
                    exact absurd hnone (by simp)
                · right
                  have hljt : alookup j t.key_value = none := by
                    rw [← hother j hjne1 (hne_arg j hk')]
                    exact hlj
                  rw [fastest_cons_of_none rest hljt]
                  exact hfr
          · intro _
            exact fastest_cons_of_some rest' hself

end MultiLevelCache

namespace MultiLevelCache

theorem cascade_length (e : String × String) (ts : List CacheLevel)
    {ev : Option (String × String)} {ts' : List CacheLevel}
    (h : cascade e ts = some (ev, ts')) : ts'.length = ts.length := by
  induction ts generalizing e ev ts' with
  | nil =>
    obtain ⟨rfl, rfl⟩ : some e = ev ∧ [] = ts' := by simpa [cascade] using h
    rfl
  | cons t rest ih =>
    rw [cascade] at h
    cases hp : LFUStrategy.put e.1 e.2 t with
    | none => rw [hp] at h; exact absurd h (by simp)
    | some pr =>
      obtain ⟨ev₁, t'⟩ := pr
      rw [hp] at h
      cases ev₁ with
      | none =>
        obtain ⟨rfl, rfl⟩ : (none : Option (String × String)) = ev ∧ t' :: rest = ts' := by
          simpa using h
        rfl
      | some e' =>
        dsimp only at h
        cases hc : cascade e' rest with
        | none => rw [hc] at h; exact absurd h (by simp)
        | some pr₂ =>
          obtain ⟨ev₂, rest'⟩ := pr₂
          rw [hc] at h
          obtain ⟨rfl, rfl⟩ : ev₂ = ev ∧ t' :: rest' = ts' := by simpa using h
          simpa using ih e' hc

end MultiLevelCache

namespace MultiLevelCache

/-- Behaviour of a successful `write` on the value stores visible via
`fastest`. -/
theorem write_spec (k v : String) (s : MultiLevelCache) {s' : MultiLevelCache}
    (h : write k v s = some s')
    (hnd : ∀ t ∈ s.levels, (akeys t.key_value).Nodup)
    (hne : s.levels ≠ []) :
    (∀ t ∈ s'.levels, (akeys t.key_value).Nodup) ∧
    s'.levels ≠ [] ∧
    fastest k s'.levels = some v ∧
    (∀ k' v', fastest k' s'.levels = some v' →
        (k' = k ∧ v' = v) ∨ fastest k' s.levels = some v') := by
  unfold write at h
  cases hc : cascade (k, v) s.levels with
  | none => rw [hc] at h; exact absurd h (by simp)
  | some pr =>
    obtain ⟨ev, ls⟩ := pr
    rw [hc] at h
    obtain ⟨hlen, hnd', hA, hB, hC⟩ := cascade_spec (k, v) s.levels hc hnd
    have hCne := hC hne
    cases ev with
    | none =>
      obtain rfl : { s with levels := ls } = s' := by simpa using h
      have hlsne : ls ≠ [] := by
        intro hnil
        rw [hnil, List.length_nil] at hlen
        exact hne (List.length_eq_zero.mp hlen.symm)
      exact ⟨hnd', hlsne, hCne, hA⟩
    | some e =>
      dsimp only at h
      by_cases hfull : ls.length < s.max_levels
      · rw [if_pos hfull] at h
        cases hcap : s.capacities.get? ls.length with
        | none => rw [hcap] at h; exact absurd h (by simp)
        | some c =>
          rw [hcap] at h
          dsimp only at h
          cases hp : LFUStrategy.put e.1 e.2 (LFUStrategy.init c) with
          | none => rw [hp] at h; exact absurd h (by simp)
          | some pr₂ =>
            obtain ⟨ev₂, nl⟩ := pr₂
            rw [hp] at h
            obtain rfl : { s with levels := ls ++ [nl] } = s' := by simpa using h
            obtain ⟨-, hself₂, hev₂, hother₂, hndp₂⟩ :=
              LFUStrategy.put_spec e.1 e.2 (LFUStrategy.init c) hp
            have hev₂none : ∀ j w, ev₂ ≠ some (j, w) := by
              intro j w hjw
              obtain ⟨hjold, -, -⟩ := hev₂ j w hjw
              exact absurd hjold (by simp [LFUStrategy.init])
            refine ⟨?_, by simp, ?_, ?_⟩
            · intro u hu
              rcases List.mem_append.mp hu with hu | hu
              · exact hnd' u hu
              · rw [List.mem_singleton.mp hu]
                exact hndp₂ (by simp [LFUStrategy.init, akeys])
            · rw [fastest_append, hCne]
            · intro k' v' hf
              rw [fastest_append] at hf
              cases hfl : fastest k' ls with
              | some u => rw [hfl] at hf; exact hA k' v' (hfl.trans (by simpa using hf))
              | none =>
                rw [hfl] at hf
                dsimp only at hf
                -- the value was found in the freshly created level
                by_cases hk' : k' = e.1
                · subst hk'
                  rw [fastest_cons_of_some [] hself₂] at hf
                  obtain rfl : v' = e.2 := by simpa using hf.symm
                  rcases hB e.1 e.2 rfl hfl with he | hff
                  · left
                    injection he with h1 h2
                    exact ⟨h1, h2⟩
                  · right; exact hff
                · exfalso
                  have hnone : alookup k' nl.key_value = none := by
                    rw [hother₂ k' hk' (fun j w hjw => absurd hjw (hev₂none j w))]
                    simp [LFUStrategy.init]
                  rw [fastest_cons_of_none [] hnone] at hf
                  exact Option.noConfusion hf
      · rw [if_neg hfull] at h
        obtain rfl : { s with levels := ls } = s' := by simpa using h
        have hlsne : ls ≠ [] := by
          intro hnil
          rw [hnil, List.length_nil] at hlen
          exact hne (List.length_eq_zero.mp hlen.symm)
        exact ⟨hnd', hlsne, hCne, hA⟩

end MultiLevelCache

/-- The function `fastest` only depends on the value stores of the levels. -/
theorem fastest_eq_of_map (k : String) {ls ls' : List CacheLevel}
    (h : ls.map (fun t => t.key_value) = ls'.map (fun t => t.key_value)) :
    fastest k ls = fastest k ls' := by
  induction ls generalizing ls' with
  | nil =>
    cases ls' with
    | nil => rfl
    | cons => simp at h
  | cons t ts ih =>
    cases ls' with
    | nil => simp at h
    | cons u us =>
      simp only [List.map_cons, List.cons.injEq] at h
      cases hl : alookup k u.key_value with
      | some v =>
        rw [fastest_cons_of_some ts (show alookup k t.key_value = some v by rw [h.1]; exact hl),
          fastest_cons_of_some us hl]
      | none =>
        rw [fastest_cons_of_none ts (show alookup k t.key_value = none by rw [h.1]; exact hl),
          fastest_cons_of_none us hl]
        exact ih h.2

namespace MultiLevelCache

/-- The level-scanning loop of `read` returns the `fastest` visible value and
changes no level's value store (a hit only updates frequency bookkeeping). -/
theorem findHit_spec (k : String) (ls : List CacheLevel) {i : Nat} {v : String}
    {ls' : List CacheLevel} (h : findHit k ls = some (i, v, ls')) :
    fastest k ls = some v ∧
    ls'.map (fun t => t.key_value) = ls.map (fun t => t.key_value) := by
  induction ls generalizing i ls' with
  | nil => exact absurd h (by simp [findHit])
  | cons l rest ih =>
    rw [findHit] at h
    cases hg : LFUStrategy.get k l with
    | mk o l' =>
      rw [hg] at h
      have hgl := LFUStrategy.get_fst k l
      rw [hg] at hgl
      have hgv := LFUStrategy.get_snd_key_value k l
      rw [hg] at hgv
      dsimp only at hgl hgv
      cases o with
      | some w =>
        obtain ⟨-, rfl, rfl⟩ : 0 = i ∧ w = v ∧ l' :: rest = ls' := by
          simpa using h
        refine ⟨fastest_cons_of_some rest hgl.symm, ?_⟩
        simp [hgv]
      | none =>
        cases hfr : findHit k rest with
        | none => rw [hfr] at h; exact absurd h (by simp)
        | some pr =>
          obtain ⟨i₀, v₀, ls₀⟩ := pr
          rw [hfr] at h
          obtain ⟨-, rfl, rfl⟩ : i₀ + 1 = i ∧ v₀ = v ∧ l :: ls₀ = ls' := by
            simpa using h
          obtain ⟨hfast, hmap⟩ := ih hfr
          refine ⟨?_, by simp [hmap]⟩
          rw [fastest_cons_of_none rest hgl.symm]
          exact hfast

end MultiLevelCache

namespace MultiLevelCache

/-- Behaviour of a successful `read` on the value stores visible via
`fastest`: a returned value was the fastest visible one, and every value
visible afterwards was either already visible or re-written by promotion at
the same value. -/
theorem read_spec (k : String) (s : MultiLevelCache) {o : Option String}
    {s' : MultiLevelCache} (h : read k s = some (o, s'))
    (hnd : ∀ t ∈ s.levels, (akeys t.key_value).Nodup)
    (hne : s.levels ≠ []) :
    (∀ t ∈ s'.levels, (akeys t.key_value).Nodup) ∧
    s'.levels ≠ [] ∧
    (∀ v, o = some v → fastest k s.levels = some v) ∧
    (∀ k' v', fastest k' s'.levels = some v' → fastest k' s.levels = some v') := by
  unfold read at h
  cases hfh : findHit k s.levels with
  | none =>
    rw [hfh] at h
    obtain ⟨rfl, rfl⟩ : (none : Option String) = o ∧ s = s' := by simpa using h
    exact ⟨hnd, hne, by simp, fun _ _ h => h⟩
  | some pr =>
    obtain ⟨i, v, ls⟩ := pr
    rw [hfh] at h
    dsimp only at h
    obtain ⟨hfast, hmap⟩ := findHit_spec k s.levels hfh
    have hndls : ∀ t ∈ ls, (akeys t.key_value).Nodup := by
      intro t ht
      have : t.key_value ∈ ls.map (fun t => t.key_value) := List.mem_map_of_mem _ ht
      rw [hmap] at this
      obtain ⟨u, hu, hukv⟩ := List.mem_map.mp this
      rw [← hukv]
      exact hnd u hu
    have hlsne : ls ≠ [] := by
      intro hnil
      apply hne
      rw [hnil] at hmap
      simpa using hmap.symm
    have hfls : ∀ k', fastest k' ls = fastest k' s.levels :=
      fun k' => fastest_eq_of_map k' hmap
    by_cases hi : i = 0
    · rw [if_pos hi] at h
      obtain ⟨rfl, rfl⟩ : some v = o ∧ { s with levels := ls } = s' := by simpa using h
      refine ⟨hndls, hlsne, ?_, ?_⟩
      · intro w hw
        rw [← Option.some_inj.mp hw]
        exact hfast
      · intro k' v' hf
        rw [← hfls k']
        exact hf
    · rw [if_neg hi] at h
      cases hw : write k v { s with levels := ls } with
      | none => rw [hw] at h; exact absurd h (by simp)
      | some s'' =>
        rw [hw] at h
        obtain ⟨rfl, rfl⟩ : some v = o ∧ s'' = s' := by simpa using h
        obtain ⟨hnd'', hne'', -, hA⟩ := write_spec k v { s with levels := ls } hw hndls hlsne
        refine ⟨hnd'', hne'', ?_, ?_⟩
        · intro w hw'
          rw [← Option.some_inj.mp hw']
          exact hfast
        · intro k' v' hf
          rcases hA k' v' hf with ⟨rfl, rfl⟩ | hr
          · exact hfast
          · rw [← hfls k']
            exact hr

end MultiLevelCache

theorem delete_key_value (k : String) (t : CacheLevel) :
    (LFUStrategy.delete k t).key_value =
      if (alookup k t.key_value).isSome then aerase k t.key_value
      else t.key_value := by
  unfold LFUStrategy.delete
  cases alookup k t.key_value with
  | none => simp
  | some w => simp [apply_ite]

theorem delete_key_value_lookup (k k' : String) (t : CacheLevel)
    (hnd : (akeys t.key_value).Nodup) :
    alookup k' (LFUStrategy.delete k t).key_value =
      if k' = k then none else alookup k' t.key_value := by
  rw [delete_key_value]
  by_cases hk : k' = k
  · subst hk
    simp only [if_pos rfl]
    cases hl : alookup k' t.key_value with
    | none => simp [hl]
    | some w => simp [hl, alookup_aerase_self hnd]
  · simp only [if_neg hk]
    split
    · exact alookup_aerase_ne hk t.key_value
    · rfl

theorem delete_key_value_nodup (k : String) (t : CacheLevel)
    (hnd : (akeys t.key_value).Nodup) :
    (akeys (LFUStrategy.delete k t).key_value).Nodup := by
  rw [delete_key_value]
  split
  · exact akeys_aerase_nodup k hnd
  · exact hnd

namespace MultiLevelCache

theorem delete_fastest (k k' : String) (ls : List CacheLevel)
    (hnd : ∀ t ∈ ls, (akeys t.key_value).Nodup) :
    fastest k' (ls.map (LFUStrategy.delete k)) =
      if k' = k then none else fastest k' ls := by
  induction ls with
  | nil => simp
  | cons t rest ih =>
    have hndt := hnd t (by simp)
    have hndr : ∀ u ∈ rest, (akeys u.key_value).Nodup :=
      fun u hu => hnd u (List.mem_cons_of_mem _ hu)
    rw [List.map_cons]
    by_cases hk : k' = k
    · have h1 : alookup k' (LFUStrategy.delete k t).key_value = none := by
        rw [delete_key_value_lookup k k' t hndt, if_pos hk]
      rw [fastest_cons_of_none (rest.map (LFUStrategy.delete k)) h1, ih hndr]
      simp [hk]
    · cases hl : alookup k' t.key_value with
      | some v =>
        rw [fastest_cons_of_some (rest.map (LFUStrategy.delete k))
          (by rw [delete_key_value_lookup k k' t hndt, if_neg hk]; exact hl)]
        rw [fastest_cons_of_some rest hl, if_neg hk]
      | none =>
        rw [fastest_cons_of_none (rest.map (LFUStrategy.delete k))
          (by rw [delete_key_value_lookup k k' t hndt, if_neg hk]; exact hl)]
        rw [ih hndr, fastest_cons_of_none rest hl]

end MultiLevelCache

theorem agrees_write {m : List (String × String)} {s : MultiLevelCache}
    (hA : Agrees m s) {k v : String} {s' : MultiLevelCache}
    (h : MultiLevelCache.write k v s = some s') :
    Agrees (aupsert k v m) s' := by
  obtain ⟨hnd, hne, hm⟩ := hA
  obtain ⟨hnd', hne', hself, hother⟩ := MultiLevelCache.write_spec k v s h hnd hne
  refine ⟨hnd', hne', ?_⟩
  intro k' v' hf
  by_cases hk : k' = k
  · subst hk
    rw [hself] at hf
    rw [← Option.some_inj.mp hf]
    exact alookup_aupsert_self k' v m
  · rcases hother k' v' hf with ⟨rfl, _⟩ | hr
    · exact absurd rfl hk
    · rw [alookup_aupsert_ne hk]
      exact hm k' v' hr

theorem agrees_read {m : List (String × String)} {s : MultiLevelCache}
    (hA : Agrees m s) {k : String} {o : Option String} {s' : MultiLevelCache}
    (h : MultiLevelCache.read k s = some (o, s')) :
    Agrees m s' ∧ (∀ v, o = some v → alookup k m = some v) := by
  obtain ⟨hnd, hne, hm⟩ := hA
  obtain ⟨hnd', hne', hval, hpres⟩ := MultiLevelCache.read_spec k s h hnd hne
  exact ⟨⟨hnd', hne', fun k' v' hf => hm k' v' (hpres k' v' hf)⟩,
    fun v hv => hm k v (hval v hv)⟩

theorem agrees_delete {m : List (String × String)} {s : MultiLevelCache}
    (hA : Agrees m s) (k : String) :
    Agrees (aerase k m) (MultiLevelCache.delete k s) := by
  obtain ⟨hnd, hne, hm⟩ := hA
  refine ⟨?_, by simpa [MultiLevelCache.delete] using hne, ?_⟩
  · intro t ht
    simp only [MultiLevelCache.delete] at ht
    obtain ⟨u, hu, rfl⟩ := List.mem_map.mp ht
    exact delete_key_value_nodup k u (hnd u hu)
  · intro k' v' hf
    simp only [MultiLevelCache.delete] at hf
    rw [MultiLevelCache.delete_fastest k k' s.levels hnd] at hf
    by_cases hk : k' = k
    · rw [if_pos hk] at hf; exact absurd hf (by simp)
    · rw [if_neg hk] at hf
      rw [alookup_aerase_ne hk]
      exact hm k' v' hf

/-- Running any successful sequence of operations preserves the simulation
invariant against the reference store. -/
theorem runOps_agrees (ops : List MLOp) {m : List (String × String)}
    {s : MultiLevelCache} {s' : MultiLevelCache}
    (hA : Agrees m s) (h : runOps ops s = some s') :
    Agrees (lastWriteStore ops m) s' := by
  induction ops generalizing m s with
  | nil =>
    obtain rfl : s = s' := by simpa [runOps] using h
    exact hA
  | cons op t ih =>
    cases op with
    | write k v =>
      rw [runOps] at h
      cases hw : MultiLevelCache.write k v s with
      | none => rw [hw] at h; exact absurd h (by simp)
      | some s₁ =>
        rw [hw] at h
        exact ih (agrees_write hA hw) h
    | read k =>
      rw [runOps] at h
      cases hr : MultiLevelCache.read k s with
      | none => rw [hr] at h; exact absurd h (by simp)
      | some pr =>
        obtain ⟨o, s₁⟩ := pr
        rw [hr] at h
        exact ih (agrees_read hA hr).1 h
    | delete k =>
      rw [runOps] at h
      exact ih (agrees_delete hA k) h

/-! ### Sequences of `put`s within capacity -/

theorem aupsert_length {κ' : Type u} [DecidableEq κ'] {β : Type v} (k : κ') (v : β)
    (l : List (κ' × β)) :
    (aupsert k v l).length = if k ∈ akeys l then l.length else l.length + 1 := by
  induction l with
  | nil => simp
  | cons p t ih =>
    obtain ⟨k', v'⟩ := p
    by_cases h : k = k' <;> simp [aupsert, h, ih] <;> split <;> simp

theorem newKeys_congr {d₁ d₂ : List String} (ops : List (String × String))
    (h : ∀ x, x ∈ d₁ ↔ x ∈ d₂) : newKeys d₁ ops = newKeys d₂ ops := by
  induction ops generalizing d₁ d₂ with
  | nil => rfl
  | cons p t ih =>
    obtain ⟨k, v⟩ := p
    by_cases hk : k ∈ d₁
    · rw [newKeys, newKeys, if_pos hk, if_pos ((h k).mp hk)]
      exact ih h
    · rw [newKeys, newKeys, if_neg hk, if_neg (fun hx => hk ((h k).mpr hx))]
      refine congrArg (1 + ·) (ih ?_)
      intro x
      simp [h x]

theorem newKeys_eq_card (d : List String) (ops : List (String × String)) :
    newKeys d ops = ((ops.map Prod.fst).toFinset \ d.toFinset).card := by
  induction ops generalizing d with
  | nil => simp [newKeys]
  | cons p t ih =>
    obtain ⟨k, v⟩ := p
    by_cases hk : k ∈ d
    · rw [newKeys, if_pos hk, ih d]
      congr 1
      ext x
      simp only [List.map_cons, List.toFinset_cons, Finset.mem_sdiff, Finset.mem_insert,
        List.mem_toFinset]
      constructor
      · rintro ⟨hx, hxd⟩
        exact ⟨Or.inr hx, hxd⟩
      · rintro ⟨hx | hx, hxd⟩
        · exact absurd (hx ▸ hk) (by simpa using hxd)
        · exact ⟨hx, hxd⟩
    · rw [newKeys, if_neg hk, ih (k :: d)]
      have : (t.map Prod.fst).toFinset \ (k :: d).toFinset =
          ((k :: (t.map Prod.fst)).toFinset \ d.toFinset).erase k := by
        ext x
        by_cases hx : x = k <;>
          simp [hx, hk, Finset.mem_sdiff, Finset.mem_erase]
      rw [this]
      rw [Finset.card_erase_of_mem (by simp [hk])]
      have hpos : 0 < ((k :: (t.map Prod.fst)).toFinset \ d.toFinset).card :=
        Finset.card_pos.mpr ⟨k, by simp [hk]⟩
      simp only [List.map_cons]
      omega

theorem lastWritten_isSome_of_mem {k : String} {ops : List (String × String)}
    (h : k ∈ ops.map Prod.fst) : (lastWritten k ops).isSome := by
  induction ops with
  | nil => simp at h
  | cons p t ih =>
    obtain ⟨k', v⟩ := p
    rw [lastWritten]
    cases hlw : lastWritten k t with
    | some w => simp
    | none =>
      simp only [List.map_cons, List.mem_cons] at h
      rcases h with rfl | h
      · simp
      · have := ih h
        rw [hlw] at this
        exact absurd this (by simp)

/-- Main induction for claim C2: as long as the distinct new keys fit in the
remaining capacity, every `put` succeeds without eviction, and afterwards
every key is bound to its last-written value. -/
theorem runPuts_spec (ops : List (String × String)) (s : LFUStrategy)
    (hnd : (akeys s.key_value).Nodup)
    (hroom : s.key_value.length + newKeys (akeys s.key_value) ops ≤ s.capacity) :
    ∃ evs s', runPuts ops s = some (evs, s') ∧
      (∀ ev ∈ evs, ev = none) ∧
      (akeys s'.key_value).Nodup ∧
      s'.capacity = s.capacity ∧
      s'.key_value.length = s.key_value.length + newKeys (akeys s.key_value) ops ∧
      (∀ k', alookup k' s'.key_value =
        match lastWritten k' ops with
        | some w => some w
        | none => alookup k' s.key_value) := by
  induction ops generalizing s with
  | nil =>
    refine ⟨[], s, rfl, by simp, hnd, rfl, by simp [newKeys], ?_⟩
    intro k'
    simp [lastWritten]
  | cons p t ih =>
    obtain ⟨k, v⟩ := p
    by_cases hk : k ∈ akeys s.key_value
    · -- overwrite: no new key
      have hks : (alookup k s.key_value).isSome :=
        (alookup_isSome_iff_mem_akeys k s.key_value).mpr hk
      obtain ⟨w, hw⟩ := Option.isSome_iff_exists.mp hks
      obtain ⟨s₁, hput, hkv₁, hcap₁, -⟩ := LFUStrategy.put_present k v w s hw
      have hak₁ : akeys s₁.key_value = akeys s.key_value := by
        rw [hkv₁]
        exact akeys_aupsert_of_mem v hk
      have hlen₁ : s₁.key_value.length = s.key_value.length := by
        rw [hkv₁, aupsert_length, if_pos hk]
      have hnk : newKeys (akeys s.key_value) ((k, v) :: t) = newKeys (akeys s.key_value) t := by
        rw [newKeys, if_pos hk]
      obtain ⟨evs, s', hrun, hevs, hnd', hcap', hlen', hlook⟩ := ih s₁
        (by rw [hak₁]; exact hnd)
        (by rw [hak₁, hlen₁, hcap₁]; rw [hnk] at hroom; exact hroom)
      refine ⟨none :: evs, s', ?_, ?_, hnd', hcap'.trans hcap₁, ?_, ?_⟩
      · rw [runPuts, hput]
        dsimp only
        rw [hrun]
      · intro ev hev
        rcases List.mem_cons.mp hev with rfl | hev
        · rfl
        · exact hevs ev hev
      · rw [hlen', hak₁, hlen₁, hnk]
      · intro k'
        rw [hlook k', lastWritten]
        cases lastWritten k' t with
        | some w' => rfl
        | none =>
          by_cases hk' : k = k'
          · subst hk'
            rw [hkv₁, if_pos rfl, alookup_aupsert_self]
          · rw [hkv₁, if_neg hk', alookup_aupsert_ne (fun h => hk' h.symm)]
    · -- fresh insert: one new key
      have habs : alookup k s.key_value = none :=
        (alookup_eq_none_iff_not_mem_akeys k s.key_value).mpr hk
      have hnk : newKeys (akeys s.key_value) ((k, v) :: t) =
          1 + newKeys (k :: akeys s.key_value) t := by
        rw [newKeys, if_neg hk]
      rw [hnk] at hroom
      obtain ⟨s₁, hput, hkv₁, hcap₁⟩ := LFUStrategy.put_absent_notfull k v s habs (by omega)
      have hak₁ : akeys s₁.key_value = akeys s.key_value ++ [k] := by
        rw [hkv₁]; simp [akeys]
      have hlen₁ : s₁.key_value.length = s.key_value.length + 1 := by
        rw [hkv₁]; simp
      have hnd₁ : (akeys s₁.key_value).Nodup := by
        rw [hak₁]
        refine List.Nodup.append hnd (by simp) ?_
        intro x hx hxx
        rw [List.mem_singleton.mp hxx] at hx
        exact hk hx
      have hset : ∀ x, x ∈ akeys s₁.key_value ↔ x ∈ k :: akeys s.key_value := by
        intro x
        rw [hak₁]
        simp [or_comm]
      obtain ⟨evs, s', hrun, hevs, hnd', hcap', hlen', hlook⟩ := ih s₁ hnd₁
        (by
          rw [newKeys_congr t hset, hlen₁, hcap₁]
          omega)
      refine ⟨none :: evs, s', ?_, ?_, hnd', hcap'.trans hcap₁, ?_, ?_⟩
      · rw [runPuts, hput]
        dsimp only
        rw [hrun]
      · intro ev hev
        rcases List.mem_cons.mp hev with rfl | hev
        · rfl
        · exact hevs ev hev
      · rw [hlen', newKeys_congr t hset, hlen₁, hnk]
        omega
      · intro k'
        rw [hlook k', lastWritten]
        cases lastWritten k' t with
        | some w' => rfl
        | none =>
          by_cases hk' : k = k'
          · subst hk'
            rw [hkv₁, if_pos rfl]
            have : k ∉ akeys s.key_value := hk
            rw [← aupsert_of_not_mem v this, alookup_aupsert_self]
          · rw [hkv₁, if_neg hk']
            rw [← aupsert_of_not_mem v hk, alookup_aupsert_ne (fun h => hk' h.symm)]

namespace MultiLevelCache

theorem cascade_cons (e : String × String) (t : CacheLevel) (rest : List CacheLevel)
    {ev : Option (String × String)} {ts' : List CacheLevel}
    (h : cascade e (t :: rest) = some (ev, ts')) :
    ∃ ev₁ t' rest', LFUStrategy.put e.1 e.2 t = some (ev₁, t') ∧ ts' = t' :: rest' := by
  rw [cascade] at h
  cases hp : LFUStrategy.put e.1 e.2 t with
  | none => rw [hp] at h; exact absurd h (by simp)
  | some pr =>
    obtain ⟨ev₁, t'⟩ := pr
    rw [hp] at h
    cases ev₁ with
    | none =>
      obtain ⟨rfl, rfl⟩ : (none : Option (String × String)) = ev ∧ t' :: rest = ts' := by
        simpa using h
      exact ⟨none, t', rest, rfl, rfl⟩
    | some e' =>
      dsimp only at h
      cases hc : cascade e' rest with
      | none => rw [hc] at h; exact absurd h (by simp)
      | some pr₂ =>
        obtain ⟨ev₂, rest'⟩ := pr₂
        rw [hc] at h
        obtain ⟨rfl, rfl⟩ : ev₂ = ev ∧ t' :: rest' = ts' := by simpa using h
        exact ⟨some e', t', rest', rfl, rfl⟩

end MultiLevelCache

namespace MultiLevelCache

/-- After a successful `write`, the written key sits in the first level with
the written value. -/
theorem write_head (k v : String) (s : MultiLevelCache) {s' : MultiLevelCache}
    (h : write k v s = some s') (t0 : CacheLevel) (rest : List CacheLevel)
    (hl : s.levels = t0 :: rest) :
    ∃ t0' rest', s'.levels = t0' :: rest' ∧ alookup k t0'.key_value = some v := by
  unfold write at h
  rw [hl] at h
  cases hc : cascade (k, v) (t0 :: rest) with
  | none => rw [hc] at h; exact absurd h (by simp)
  | some pr =>
    obtain ⟨ev, ls⟩ := pr
    rw [hc] at h
    obtain ⟨ev₁, t', rest', hp, rfl⟩ := cascade_cons (k, v) t0 rest hc
    have hself := (LFUStrategy.put_spec k v t0 hp).2.1
    cases ev with
    | none =>
      obtain rfl : { s with levels := t' :: rest' } = s' := by simpa using h
      exact ⟨t', rest', rfl, hself⟩
    | some e =>
      dsimp only at h
      by_cases hfull : (t' :: rest').length < s.max_levels
      · rw [if_pos hfull] at h
        cases hcap : s.capacities.get? (t' :: rest').length with
        | none => rw [hcap] at h; exact absurd h (by simp)
        | some c =>
          rw [hcap] at h
          dsimp only at h
          cases hp₂ : LFUStrategy.put e.1 e.2 (LFUStrategy.init c) with
          | none => rw [hp₂] at h; exact absurd h (by simp)
          | some pr₂ =>
            obtain ⟨ev₂, nl⟩ := pr₂
            rw [hp₂] at h
            obtain rfl : { s with levels := (t' :: rest') ++ [nl] } = s' := by simpa using h
            exact ⟨t', rest' ++ [nl], by simp, hself⟩
      · rw [if_neg hfull] at h
        obtain rfl : { s with levels := t' :: rest' } = s' := by simpa using h
        exact ⟨t', rest', rfl, hself⟩

end MultiLevelCache

/-- A freshly constructed cache agrees with the empty reference store. -/
theorem agrees_init (max_levels : Nat) (capacities : List Nat) {c₀ : MultiLevelCache}
    (h : MultiLevelCache.init max_levels capacities = some c₀) :
    Agrees [] c₀ := by
  unfold MultiLevelCache.init at h
  cases capacities with
  | nil => exact absurd h (by simp)
  | cons c cs =>
    obtain rfl : (⟨[LFUStrategy.init c], max_levels, c :: cs⟩ : MultiLevelCache) = c₀ := by
      simpa using h
    refine ⟨?_, by simp, ?_⟩
    · intro t ht
      rw [List.mem_singleton.mp ht]
      simp [LFUStrategy.init, akeys]
    · intro k v hf
      rw [fastest_cons_of_none [] (by simp [LFUStrategy.init])] at hf
      exact absurd hf (by simp)

theorem LFUInv.init (c : Nat) : LFUInv (LFUStrategy.init c) := by
  constructor <;> simp [LFUStrategy.init, akeys]

theorem LFUInv.not_mem_bucket_of_freq_ne {s : LFUStrategy} (inv : LFUInv s)
    {k : String} {f f' : Nat} {b : List String}
    (hkf : alookup k s.key_freq = some f) (hb : alookup f' s.freq_keys = some b)
    (hne : f' ≠ f) : k ∉ b := by
  intro hk
  have := inv.b_freq f' b k hb hk
  rw [hkf] at this
  exact hne (Option.some_inj.mp this.symm)

theorem LFUInv.key_value_ne_nil {s : LFUStrategy} (inv : LFUInv s)
    {k : String} {f : Nat} (hkf : alookup k s.key_freq = some f) :
    s.key_value ≠ [] := by
  intro hnil
  have h1 : (alookup k s.key_value).isSome := (inv.dom k).mpr (by rw [hkf]; rfl)
  rw [hnil] at h1
  simp at h1

/-- Unfolding equation for `_update_freq` once the key's frequency and its
bucket are known. -/
theorem update_freq_eq (key : String) (s : LFUStrategy) {f : Nat} {b0 : List String}
    (hkf : alookup key s.key_freq = some f)
    (hb : (alookup f s.freq_keys).getD [] = b0) :
    LFUStrategy.update_freq key s =
      { s with
        key_freq := aupsert key (f + 1) s.key_freq
        freq_keys :=
          aupsert (f + 1)
            (if key ∈ (alookup (f + 1)
                  (if b0.erase key = [] then aerase f s.freq_keys
                    else aupsert f (b0.erase key) s.freq_keys)).getD []
              then (alookup (f + 1)
                  (if b0.erase key = [] then aerase f s.freq_keys
                    else aupsert f (b0.erase key) s.freq_keys)).getD []
              else (alookup (f + 1)
                  (if b0.erase key = [] then aerase f s.freq_keys
                    else aupsert f (b0.erase key) s.freq_keys)).getD [] ++ [key])
            (if b0.erase key = [] then aerase f s.freq_keys
              else aupsert f (b0.erase key) s.freq_keys)
        min_freq :=
          if b0.erase key = [] ∧ s.min_freq = f then s.min_freq + 1
          else s.min_freq } := by
  unfold LFUStrategy.update_freq
  rw [hkf]
  simp only [Option.getD_some, hb]

/-- Method `_update_freq` preserves the representation invariant and implements the
specified frequency bump: the key's frequency becomes `f + 1`, other keys'
frequencies are untouched, the key is appended at the tail of the bucket for
`f + 1`, and `min_freq` is incremented exactly when the vacated bucket was
the minimum one and became empty. -/
theorem update_freq_spec (key : String) (s : LFUStrategy) (inv : LFUInv s)
    {f : Nat} (hkf : alookup key s.key_freq = some f) :
    LFUInv (LFUStrategy.update_freq key s) ∧
    alookup key (LFUStrategy.update_freq key s).key_freq = some (f + 1) ∧
    (∀ k', k' ≠ key →
      alookup k' (LFUStrategy.update_freq key s).key_freq = alookup k' s.key_freq) ∧
    alookup (f + 1) (LFUStrategy.update_freq key s).freq_keys =
      some ((alookup (f + 1) s.freq_keys).getD [] ++ [key]) ∧
    (LFUStrategy.update_freq key s).min_freq =
      (if ((alookup f s.freq_keys).getD []).erase key = [] ∧ s.min_freq = f
        then s.min_freq + 1 else s.min_freq) := by
  obtain ⟨b0, hb0, hkb0⟩ := inv.f_b key f hkf
  have hb0nd : b0.Nodup := inv.b_nd f b0 hb0
  have hb0' : (alookup f s.freq_keys).getD [] = b0 := by rw [hb0]; rfl
  rw [update_freq_eq key s hkf hb0']
  set fk1 := if b0.erase key = [] then aerase f s.freq_keys
    else aupsert f (b0.erase key) s.freq_keys with hfk1def
  have hfk1_ne : ∀ f', f' ≠ f → alookup f' fk1 = alookup f' s.freq_keys := by
    intro f' hf'
    rw [hfk1def]
    split
    · exact alookup_aerase_ne hf' _
    · exact alookup_aupsert_ne hf' _ _
  have hfk1_some : ∀ f' b, alookup f' fk1 = some b →
      (f' = f ∧ b = b0.erase key ∧ b0.erase key ≠ []) ∨
      (f' ≠ f ∧ alookup f' s.freq_keys = some b) := by
    intro f' b hb
    by_cases hf' : f' = f
    · subst hf'
      left
      refine ⟨rfl, ?_, ?_⟩
      · rw [hfk1def] at hb
        by_cases hbe : b0.erase key = []
        · rw [if_pos hbe, alookup_aerase_self inv.fk_nd] at hb
          exact absurd hb (by simp)
        · rw [if_neg hbe, alookup_aupsert_self] at hb
          exact (Option.some_inj.mp hb).symm
      · rw [hfk1def] at hb
        by_cases hbe : b0.erase key = []
        · rw [if_pos hbe, alookup_aerase_self inv.fk_nd] at hb
          exact absurd hb (by simp)
        · exact hbe
    · right
      exact ⟨hf', by rw [← hfk1_ne f' hf']; exact hb⟩
  set nb := (alookup (f + 1) fk1).getD [] with hnbdef
  have hnb_s : alookup (f + 1) fk1 = alookup (f + 1) s.freq_keys :=
    hfk1_ne (f + 1) (by omega)
  have hnbmem : key ∉ nb := by
    rw [hnbdef]
    cases hc : alookup (f + 1) fk1 with
    | none => simp
    | some c =>
      rw [hnb_s] at hc
      simp only [Option.getD_some]
      exact inv.not_mem_bucket_of_freq_ne hkf hc (by omega)
  rw [if_neg hnbmem]
  have hnb_nd : nb.Nodup := by
    rw [hnbdef]
    cases hc : alookup (f + 1) fk1 with
    | none => simp
    | some c =>
      rw [hnb_s] at hc
      simpa using inv.b_nd (f + 1) c hc
  have hnbk : ∀ k, k ∈ nb → alookup k s.key_freq = some (f + 1) := by
    intro k hk
    rw [hnbdef] at hk
    cases hc : alookup (f + 1) fk1 with
    | none => rw [hc] at hk; simp at hk
    | some c =>
      rw [hc] at hk
      rw [hnb_s] at hc
      exact inv.b_freq (f + 1) c k hc (by simpa using hk)
  have hfk1_nd : (akeys fk1).Nodup := by
    rw [hfk1def]
    split
    · exact akeys_aerase_nodup f inv.fk_nd
    · exact akeys_aupsert_nodup _ inv.fk_nd
  have hFK2 : ∀ f', alookup f' (aupsert (f + 1) (nb ++ [key]) fk1) =
      if f' = f + 1 then some (nb ++ [key]) else alookup f' fk1 := by
    intro f'
    by_cases hf' : f' = f + 1
    · subst hf'
      rw [alookup_aupsert_self, if_pos rfl]
    · rw [alookup_aupsert_ne hf', if_neg hf']
  refine ⟨?_, ?_, ?_, ?_, ?_⟩
  case refine_2 =>
    dsimp only
    exact alookup_aupsert_self key (f + 1) s.key_freq
  case refine_3 =>
    dsimp only
    exact fun k' hk' => alookup_aupsert_ne hk' (f + 1) s.key_freq
  case refine_4 =>
    dsimp only
    rw [hFK2 (f + 1), if_pos rfl, hnbdef, hnb_s]
  case refine_5 =>
    dsimp only
    rw [hb0']
  constructor
  case kv_nd => exact inv.kv_nd
  case kf_nd => exact akeys_aupsert_nodup (f + 1) inv.kf_nd
  case fk_nd => exact akeys_aupsert_nodup (nb ++ [key]) hfk1_nd
  case dom =>
    intro k
    dsimp only
    by_cases hk : k = key
    · rw [hk, alookup_aupsert_self]
      exact iff_of_true ((inv.dom key).mpr (by rw [hkf]; rfl)) rfl
    · rw [alookup_aupsert_ne hk]
      exact inv.dom k
  case b_ne =>
    intro f' b hb
    dsimp only at hb
    rw [hFK2 f'] at hb
    by_cases hf' : f' = f + 1
    · rw [if_pos hf'] at hb
      obtain rfl : nb ++ [key] = b := Option.some_inj.mp hb
      simp
    · rw [if_neg hf'] at hb
      rcases hfk1_some f' b hb with ⟨-, rfl, hne⟩ | ⟨-, hb'⟩
      · exact hne
      · exact inv.b_ne f' b hb'
  case b_nd =>
    intro f' b hb
    dsimp only at hb
    rw [hFK2 f'] at hb
    by_cases hf' : f' = f + 1
    · rw [if_pos hf'] at hb
      obtain rfl : nb ++ [key] = b := Option.some_inj.mp hb
      refine List.Nodup.append hnb_nd (by simp) ?_
      intro x hx hxx
      rw [List.mem_singleton.mp hxx] at hx
      exact hnbmem hx
    · rw [if_neg hf'] at hb
      rcases hfk1_some f' b hb with ⟨-, rfl, -⟩ | ⟨-, hb'⟩
      · exact hb0nd.erase key
      · exact inv.b_nd f' b hb'
  case b_freq =>
    intro f' b k hb hk
    dsimp only at hb ⊢
    rw [hFK2 f'] at hb
    by_cases hf' : f' = f + 1
    · rw [if_pos hf'] at hb
      obtain rfl : nb ++ [key] = b := Option.some_inj.mp hb
      rcases List.mem_append.mp hk with hkm | hkm
      · have hkne : k ≠ key := fun h => hnbmem (h ▸ hkm)
        rw [alookup_aupsert_ne hkne, hf']
        exact hnbk k hkm
      · rw [List.mem_singleton.mp hkm, alookup_aupsert_self, hf']
    · rw [if_neg hf'] at hb
      rcases hfk1_some f' b hb with ⟨hf'f, hbb, -⟩ | ⟨hff, hb'⟩
      · have hkeb : k ∈ b0.erase key := hbb ▸ hk
        have hk0 : k ∈ b0 := List.mem_of_mem_erase hkeb
        have hkne : k ≠ key := ((List.Nodup.mem_erase_iff hb0nd).mp hkeb).1
        rw [alookup_aupsert_ne hkne, hf'f]
        exact inv.b_freq f b0 k hb0 hk0
      · have hkne : k ≠ key := by
          intro h
          rw [h] at hk
          exact inv.not_mem_bucket_of_freq_ne hkf hb' hff hk
        rw [alookup_aupsert_ne hkne]
        exact inv.b_freq f' b k hb' hk
  case f_b =>
    intro k f'' hkf''
    dsimp only at hkf'' ⊢
    by_cases hk : k = key
    · rw [hk, alookup_aupsert_self] at hkf''
      have hf'' : f + 1 = f'' := Option.some_inj.mp hkf''
      refine ⟨nb ++ [key], ?_, by simp [hk]⟩
      rw [← hf'', hFK2, if_pos rfl]
    · rw [alookup_aupsert_ne hk] at hkf''
      obtain ⟨b2, hb2, hkb2⟩ := inv.f_b k f'' hkf''
      by_cases hf'' : f'' = f + 1
      · refine ⟨nb ++ [key], ?_, ?_⟩
        · rw [hf'', hFK2, if_pos rfl]
        · have hnbb2 : nb = b2 := by
            rw [hnbdef, hnb_s, ← hf'', hb2]
            rfl
          rw [hnbb2]
          exact List.mem_append_left _ hkb2
      · by_cases hff : f'' = f
        · have hb02 : b0 = b2 := by
            rw [hff] at hb2
            rw [hb0] at hb2
            exact Option.some_inj.mp hb2
          have hkeb : k ∈ b0.erase key :=
            (List.Nodup.mem_erase_iff hb0nd).mpr ⟨hk, hb02 ▸ hkb2⟩
          have hbne : b0.erase key ≠ [] := fun h => by rw [h] at hkeb; simp at hkeb
          refine ⟨b0.erase key, ?_, hkeb⟩
          rw [hFK2, if_neg hf'', hff, hfk1def, if_neg hbne, alookup_aupsert_self]
        · refine ⟨b2, ?_, hkb2⟩
          rw [hFK2, if_neg hf'', hfk1_ne f'' hff]
          exact hb2
  case f_pos =>
    intro k f'' hkf''
    dsimp only at hkf''
    by_cases hk : k = key
    · rw [hk, alookup_aupsert_self] at hkf''
      have : f + 1 = f'' := Option.some_inj.mp hkf''
      omega
    · rw [alookup_aupsert_ne hk] at hkf''
      exact inv.f_pos k f'' hkf''
  case mf_le =>
    intro f' hf'
    dsimp only at hf' ⊢
    obtain ⟨b, hb⟩ := Option.isSome_iff_exists.mp hf'
    rw [hFK2 f'] at hb
    have hmf_f : s.min_freq ≤ f := inv.mf_le f (by rw [hb0]; rfl)
    by_cases hc : b0.erase key = [] ∧ s.min_freq = f
    · rw [if_pos hc]
      by_cases hf'' : f' = f + 1
      · omega
      · rw [if_neg hf''] at hb
        rcases hfk1_some f' b hb with ⟨-, -, hne⟩ | ⟨hff, hb'⟩
        · exact absurd hc.1 hne
        · have := inv.mf_le f' (by rw [hb']; rfl)
          omega
    · rw [if_neg hc]
      by_cases hf'' : f' = f + 1
      · omega
      · rw [if_neg hf''] at hb
        rcases hfk1_some f' b hb with ⟨hf'f, -, -⟩ | ⟨-, hb'⟩
        · omega
        · exact inv.mf_le f' (by rw [hb']; rfl)
  case mf_mem =>
    intro hne
    dsimp only at hne ⊢
    by_cases hc : b0.erase key = [] ∧ s.min_freq = f
    · rw [if_pos hc, hc.2, hFK2, if_pos rfl]
      rfl
    · rw [if_neg hc]
      have hmf_f : s.min_freq ≤ f := inv.mf_le f (by rw [hb0]; rfl)
      have hmfne : s.min_freq ≠ f + 1 := by omega
      rw [hFK2, if_neg hmfne]
      by_cases hmf : s.min_freq = f
      · have hbne : b0.erase key ≠ [] := fun h => hc ⟨h, hmf⟩
        rw [hmf, hfk1def, if_neg hbne, alookup_aupsert_self]
        rfl
      · rw [hfk1_ne s.min_freq hmf]
        exact inv.mf_mem hne

theorem LFUInv.pre {s : LFUStrategy} (inv : LFUInv s) : LFUPreInv s :=
  ⟨inv.kv_nd, inv.kf_nd, inv.fk_nd, inv.dom, inv.b_ne, inv.b_nd, inv.b_freq,
    inv.f_b, inv.f_pos⟩

theorem foldl_min_le_init (fs : List Nat) (f : Nat) : fs.foldl min f ≤ f := by
  induction fs generalizing f with
  | nil => exact Nat.le_refl f
  | cons g gs ih =>
    calc (g :: gs).foldl min f = gs.foldl min (min f g) := rfl
    _ ≤ min f g := ih (min f g)
    _ ≤ f := Nat.min_le_left f g

theorem foldl_min_le (fs : List Nat) (f x : Nat) (hx : x ∈ f :: fs) :
    fs.foldl min f ≤ x := by
  induction fs generalizing f with
  | nil => rw [List.mem_singleton.mp hx]; exact Nat.le_refl f
  | cons g gs ih =>
    rcases List.mem_cons.mp hx with rfl | hx'
    · exact foldl_min_le_init (g :: gs) x
    · rcases List.mem_cons.mp hx' with rfl | hx''
      · calc (x :: gs).foldl min f = gs.foldl min (min f x) := rfl
        _ ≤ min f x := foldl_min_le_init gs (min f x)
        _ ≤ x := Nat.min_le_right f x
      · exact ih (min f g) (List.mem_cons_of_mem _ hx'')

theorem foldl_min_mem (fs : List Nat) (f : Nat) : fs.foldl min f ∈ f :: fs := by
  induction fs generalizing f with
  | nil => simp
  | cons g gs ih =>
    have h1 : (g :: gs).foldl min f = gs.foldl min (min f g) := rfl
    rw [h1]
    have h2 := ih (min f g)
    rcases List.mem_cons.mp h2 with h3 | h3
    · rw [h3]
      rcases min_choice f g with h4 | h4 <;> rw [h4] <;> simp
    · simp [h3]

/-- Overwriting the value of a present key preserves the invariant. -/
theorem set_value_inv {s : LFUStrategy} (inv : LFUInv s) (k v : String)
    (hk : k ∈ akeys s.key_value) :
    LFUInv { s with key_value := aupsert k v s.key_value } := by
  have hne : s.key_value ≠ [] := by
    intro h
    rw [h] at hk
    simp at hk
  constructor
  case kv_nd => exact akeys_aupsert_nodup v inv.kv_nd
  case kf_nd => exact inv.kf_nd
  case fk_nd => exact inv.fk_nd
  case dom =>
    intro k'
    dsimp only
    by_cases hk' : k' = k
    · rw [hk', alookup_aupsert_self]
      exact iff_of_true rfl ((inv.dom k).mp ((alookup_isSome_iff_mem_akeys k _).mpr hk))
    · rw [alookup_aupsert_ne hk']
      exact inv.dom k'
  case b_ne => exact inv.b_ne
  case b_nd => exact inv.b_nd
  case b_freq => exact inv.b_freq
  case f_b => exact inv.f_b
  case f_pos => exact inv.f_pos
  case mf_le => exact inv.mf_le
  case mf_mem =>
    intro _
    exact inv.mf_mem hne

/-- The reinsertion step of `put`: inserting a fresh key at frequency 1 with
`min_freq := 1` restores the full invariant from the pre-invariant. -/
theorem insert_inv (k v : String) (s₁ : LFUStrategy) (pre : LFUPreInv s₁)
    (habs : alookup k s₁.key_value = none) :
    LFUInv { s₁ with
      key_value := aupsert k v s₁.key_value
      key_freq := aupsert k 1 s₁.key_freq
      freq_keys := aupsert 1
        (if k ∈ (alookup 1 s₁.freq_keys).getD []
          then (alookup 1 s₁.freq_keys).getD []
          else (alookup 1 s₁.freq_keys).getD [] ++ [k]) s₁.freq_keys
      min_freq := 1 } := by
  have hkfnone : alookup k s₁.key_freq = none := by
    cases hc : alookup k s₁.key_freq with
    | none => rfl
    | some f =>
      have h1 : (alookup k s₁.key_value).isSome := (pre.dom k).mpr (by rw [hc]; rfl)
      rw [habs] at h1
      simp at h1
  have hb1mem : k ∉ (alookup 1 s₁.freq_keys).getD [] := by
    cases hc : alookup 1 s₁.freq_keys with
    | none => simp
    | some c =>
      simp only [Option.getD_some]
      intro hk
      have h1 := pre.b_freq 1 c k hc hk
      rw [hkfnone] at h1
      exact Option.noConfusion h1
  rw [if_neg hb1mem]
  set b1 := (alookup 1 s₁.freq_keys).getD [] with hb1def
  have hb1k : ∀ k', k' ∈ b1 → alookup k' s₁.key_freq = some 1 := by
    intro k' hk'
    rw [hb1def] at hk'
    cases hc : alookup 1 s₁.freq_keys with
    | none => rw [hc] at hk'; simp at hk'
    | some c =>
      rw [hc] at hk'
      exact pre.b_freq 1 c k' hc (by simpa using hk')
  have hb1nd : b1.Nodup := by
    rw [hb1def]
    cases hc : alookup 1 s₁.freq_keys with
    | none => simp
    | some c => simpa using pre.b_nd 1 c hc
  have hFK : ∀ f', alookup f' (aupsert 1 (b1 ++ [k]) s₁.freq_keys) =
      if f' = 1 then some (b1 ++ [k]) else alookup f' s₁.freq_keys := by
    intro f'
    by_cases hf' : f' = 1
    · rw [hf', alookup_aupsert_self, if_pos rfl]
    · rw [alookup_aupsert_ne hf', if_neg hf']
  constructor
  case kv_nd => exact akeys_aupsert_nodup v pre.kv_nd
  case kf_nd => exact akeys_aupsert_nodup 1 pre.kf_nd
  case fk_nd => exact akeys_aupsert_nodup (b1 ++ [k]) pre.fk_nd
  case dom =>
    intro k'
    dsimp only
    by_cases hk' : k' = k
    · rw [hk', alookup_aupsert_self, alookup_aupsert_self]
      exact iff_of_true rfl rfl
    · rw [alookup_aupsert_ne hk', alookup_aupsert_ne hk']
      exact pre.dom k'
  case b_ne =>
    intro f' b hb
    dsimp only at hb
    rw [hFK f'] at hb
    by_cases hf' : f' = 1
    · rw [if_pos hf'] at hb
      obtain rfl : b1 ++ [k] = b := Option.some_inj.mp hb
      simp
    · rw [if_neg hf'] at hb
      exact pre.b_ne f' b hb
  case b_nd =>
    intro f' b hb
    dsimp only at hb
    rw [hFK f'] at hb
    by_cases hf' : f' = 1
    · rw [if_pos hf'] at hb
      obtain rfl : b1 ++ [k] = b := Option.some_inj.mp hb
      refine List.Nodup.append hb1nd (by simp) ?_
      intro x hx hxx
      rw [List.mem_singleton.mp hxx] at hx
      exact hb1mem hx
    · rw [if_neg hf'] at hb
      exact pre.b_nd f' b hb
  case b_freq =>
    intro f' b k'' hb hk''
    dsimp only at hb ⊢
    rw [hFK f'] at hb
    by_cases hf' : f' = 1
    · rw [if_pos hf'] at hb
      obtain rfl : b1 ++ [k] = b := Option.some_inj.mp hb
      rcases List.mem_append.mp hk'' with hm | hm
      · have hkne : k'' ≠ k := fun h => hb1mem (h ▸ hm)
        rw [alookup_aupsert_ne hkne, hf']
        exact hb1k k'' hm
      · rw [List.mem_singleton.mp hm, alookup_aupsert_self, hf']
    · rw [if_neg hf'] at hb
      have hkne : k'' ≠ k := by
        intro h
        have h1 := pre.b_freq f' b k'' hb hk''
        rw [h, hkfnone] at h1
        exact Option.noConfusion h1
      rw [alookup_aupsert_ne hkne]
      exact pre.b_freq f' b k'' hb hk''
  case f_b =>
    intro k'' f'' hkf''
    dsimp only at hkf'' ⊢
    by_cases hk'' : k'' = k
    · rw [hk'', alookup_aupsert_self] at hkf''
      have hf'' : 1 = f'' := Option.some_inj.mp hkf''
      refine ⟨b1 ++ [k], ?_, by simp [hk'']⟩
      rw [← hf'', hFK, if_pos rfl]
    · rw [alookup_aupsert_ne hk''] at hkf''
      obtain ⟨b2, hb2, hkb2⟩ := pre.f_b k'' f'' hkf''
      by_cases hf'' : f'' = 1
      · refine ⟨b1 ++ [k], ?_, ?_⟩
        · rw [hf'', hFK, if_pos rfl]
        · have : b1 = b2 := by
            rw [hb1def, ← hf'', hb2]
            rfl
          rw [this]
          exact List.mem_append_left _ hkb2
      · refine ⟨b2, ?_, hkb2⟩
        rw [hFK, if_neg hf'']
        exact hb2
  case f_pos =>
    intro k'' f'' hkf''
    dsimp only at hkf''
    by_cases hk'' : k'' = k
    · rw [hk'', alookup_aupsert_self] at hkf''
      have h1 : 1 = f'' := Option.some_inj.mp hkf''
      omega
    · rw [alookup_aupsert_ne hk''] at hkf''
      exact pre.f_pos k'' f'' hkf''
  case mf_le =>
    intro f' hf'
    dsimp only at hf' ⊢
    obtain ⟨b, hb⟩ := Option.isSome_iff_exists.mp hf'
    rw [hFK f'] at hb
    by_cases hf'' : f' = 1
    · omega
    · rw [if_neg hf''] at hb
      obtain ⟨x, hx⟩ := List.exists_mem_of_ne_nil b (pre.b_ne f' b hb)
      exact pre.f_pos x f' (pre.b_freq f' b x hb hx)
  case mf_mem =>
    intro _
    dsimp only
    rw [hFK 1, if_pos rfl]
    rfl

/-- The eviction step of `put`: removing the head of the minimum-frequency
bucket preserves the pre-invariant (the state's `min_freq` may be stale, but
`put` overwrites it right after). -/
theorem evict_preinv (s : LFUStrategy) (inv : LFUInv s) {lfu : String}
    {rest : List String}
    (hb : alookup s.min_freq s.freq_keys = some (lfu :: rest)) :
    LFUPreInv { s with
      key_value := aerase lfu s.key_value
      key_freq := aerase lfu s.key_freq
      freq_keys := if rest = [] then aerase s.min_freq s.freq_keys
        else aupsert s.min_freq rest s.freq_keys } ∧
    alookup lfu s.key_freq = some s.min_freq := by
  have hlfukf : alookup lfu s.key_freq = some s.min_freq :=
    inv.b_freq s.min_freq (lfu :: rest) lfu hb (by simp)
  have hbnd : (lfu :: rest).Nodup := inv.b_nd s.min_freq (lfu :: rest) hb
  have hlfurest : lfu ∉ rest := (List.nodup_cons.mp hbnd).1
  have hFK : ∀ f', alookup f'
      (if rest = [] then aerase s.min_freq s.freq_keys
        else aupsert s.min_freq rest s.freq_keys) =
      if f' = s.min_freq
        then (if rest = [] then none else some rest)
        else alookup f' s.freq_keys := by
    intro f'
    by_cases hf' : f' = s.min_freq
    · rw [if_pos hf']
      by_cases hre : rest = []
      · rw [if_pos hre, if_pos hre, hf', alookup_aerase_self inv.fk_nd]
      · rw [if_neg hre, if_neg hre, hf', alookup_aupsert_self]
    · rw [if_neg hf']
      by_cases hre : rest = []
      · rw [if_pos hre, alookup_aerase_ne hf']
      · rw [if_neg hre, alookup_aupsert_ne hf']
  refine ⟨?_, hlfukf⟩
  constructor
  case kv_nd => exact akeys_aerase_nodup lfu inv.kv_nd
  case kf_nd => exact akeys_aerase_nodup lfu inv.kf_nd
  case fk_nd =>
    dsimp only
    split
    · exact akeys_aerase_nodup s.min_freq inv.fk_nd
    · exact akeys_aupsert_nodup rest inv.fk_nd
  case dom =>
    intro k'
    dsimp only
    by_cases hk' : k' = lfu
    · rw [hk', alookup_aerase_self inv.kv_nd, alookup_aerase_self inv.kf_nd]
      exact Iff.rfl
    · rw [alookup_aerase_ne hk', alookup_aerase_ne hk']
      exact inv.dom k'
  case b_ne =>
    intro f' b hbb
    dsimp only at hbb
    rw [hFK f'] at hbb
    by_cases hf' : f' = s.min_freq
    · rw [if_pos hf'] at hbb
      by_cases hre : rest = []
      · rw [if_pos hre] at hbb
        exact absurd hbb (by simp)
      · rw [if_neg hre] at hbb
        obtain rfl : rest = b := Option.some_inj.mp hbb
        exact hre
    · rw [if_neg hf'] at hbb
      exact inv.b_ne f' b hbb
  case b_nd =>
    intro f' b hbb
    dsimp only at hbb
    rw [hFK f'] at hbb
    by_cases hf' : f' = s.min_freq
    · rw [if_pos hf'] at hbb
      by_cases hre : rest = []
      · rw [if_pos hre] at hbb
        exact absurd hbb (by simp)
      · rw [if_neg hre] at hbb
        obtain rfl : rest = b := Option.some_inj.mp hbb
        exact (List.nodup_cons.mp hbnd).2
    · rw [if_neg hf'] at hbb
      exact inv.b_nd f' b hbb
  case b_freq =>
    intro f' b k'' hbb hk''
    dsimp only at hbb ⊢
    rw [hFK f'] at hbb
    by_cases hf' : f' = s.min_freq
    · rw [if_pos hf'] at hbb
      by_cases hre : rest = []
      · rw [if_pos hre] at hbb
        exact absurd hbb (by simp)
      · rw [if_neg hre] at hbb
        obtain rfl : rest = b := Option.some_inj.mp hbb
        have hkne : k'' ≠ lfu := fun h => hlfurest (h ▸ hk'')
        rw [alookup_aerase_ne hkne, hf']
        exact inv.b_freq s.min_freq (lfu :: rest) k'' hb (List.mem_cons_of_mem _ hk'')
    · rw [if_neg hf'] at hbb
      have hkne : k'' ≠ lfu := by
        intro h
        exact inv.not_mem_bucket_of_freq_ne hlfukf hbb hf' (h ▸ hk'')
      rw [alookup_aerase_ne hkne]
      exact inv.b_freq f' b k'' hbb hk''
  case f_b =>
    intro k'' f'' hkf''
    dsimp only at hkf'' ⊢
    have hkne : k'' ≠ lfu := by
      intro h
      rw [h, alookup_aerase_self inv.kf_nd] at hkf''
      exact Option.noConfusion hkf''
    rw [alookup_aerase_ne hkne] at hkf''
    obtain ⟨b2, hb2, hkb2⟩ := inv.f_b k'' f'' hkf''
    by_cases hf'' : f'' = s.min_freq
    · have hb2eq : b2 = lfu :: rest := by
        rw [hf''] at hb2
        rw [hb2] at hb
        exact Option.some_inj.mp hb
      have hkrest : k'' ∈ rest := by
        rw [hb2eq] at hkb2
        rcases List.mem_cons.mp hkb2 with h | h
        · exact absurd h hkne
        · exact h
      have hre : rest ≠ [] := fun h => by rw [h] at hkrest; simp at hkrest
      refine ⟨rest, ?_, hkrest⟩
      rw [hFK, if_pos hf'', if_neg hre]
    · refine ⟨b2, ?_, hkb2⟩
      rw [hFK, if_neg hf'']
      exact hb2
  case f_pos =>
    intro k'' f'' hkf''
    dsimp only at hkf''
    have hkne : k'' ≠ lfu := by
      intro h
      rw [h, alookup_aerase_self inv.kf_nd] at hkf''
      exact Option.noConfusion hkf''
    rw [alookup_aerase_ne hkne] at hkf''
    exact inv.f_pos k'' f'' hkf''

theorem exists_alookup_isSome_of_ne_nil {l : List (String × String)} (h : l ≠ []) :
    ∃ k, (alookup k l).isSome := by
  cases l with
  | nil => exact absurd rfl h
  | cons p t =>
    obtain ⟨k2, v2⟩ := p
    exact ⟨k2, by simp⟩

/-- A successful `put` preserves the representation invariant. -/
theorem put_inv (k v : String) (s : LFUStrategy) (inv : LFUInv s)
    {ev : Option (String × String)} {s' : LFUStrategy}
    (h : LFUStrategy.put k v s = some (ev, s')) : LFUInv s' := by
  unfold LFUStrategy.put at h
  split at h
  case isTrue hpres =>
    obtain ⟨rfl, rfl⟩ : ev = none ∧
        s' = LFUStrategy.update_freq k { s with key_value := aupsert k v s.key_value } := by
      simpa using h.symm
    have hk : k ∈ akeys s.key_value := (alookup_isSome_iff_mem_akeys k _).mp hpres
    have hmid := set_value_inv inv k v hk
    obtain ⟨f, hf⟩ := Option.isSome_iff_exists.mp ((inv.dom k).mp hpres)
    exact (update_freq_spec k _ hmid hf).1
  case isFalse habs =>
    rw [Option.not_isSome_iff_eq_none] at habs
    split at h
    case isTrue hfull =>
      split at h
      case h_1 => exact absurd h (by simp)
      case h_2 lfu rest hbg =>
        split at h
        case h_1 => exact absurd h (by simp)
        case h_2 w hw =>
          obtain ⟨rfl, rfl⟩ : ev = some (lfu, w) ∧
              s' = { s with
                key_value := aupsert k v (aerase lfu s.key_value)
                key_freq := aupsert k 1 (aerase lfu s.key_freq)
                freq_keys :=
                  aupsert 1
                    (let b₁ := (alookup 1 (if rest = [] then aerase s.min_freq s.freq_keys
                        else aupsert s.min_freq rest s.freq_keys)).getD []
                      if k ∈ b₁ then b₁ else b₁ ++ [k])
                    (if rest = [] then aerase s.min_freq s.freq_keys
                      else aupsert s.min_freq rest s.freq_keys)
                min_freq := 1 } := by
            simpa using h.symm
          have hbsome : alookup s.min_freq s.freq_keys = some (lfu :: rest) := by
            cases hcc : alookup s.min_freq s.freq_keys with
            | none => rw [hcc] at hbg; simp at hbg
            | some c =>
              rw [hcc] at hbg
              simp only [Option.getD_some] at hbg
              exact congrArg some hbg
          obtain ⟨pre₁, hlfukf⟩ := evict_preinv s inv hbsome
          have hkne : k ≠ lfu := by
            intro hEq
            rw [hEq, hw] at habs
            exact Option.noConfusion habs
          have habs₁ : alookup k (aerase lfu s.key_value) = none := by
            rw [alookup_aerase_ne hkne]
            exact habs
          exact insert_inv k v _ pre₁ habs₁
    case isFalse hfull =>
      obtain ⟨rfl, rfl⟩ : ev = none ∧
          s' = { s with
            key_value := aupsert k v s.key_value
            key_freq := aupsert k 1 s.key_freq
            freq_keys := aupsert 1
              (let b₁ := (alookup 1 s.freq_keys).getD []
                if k ∈ b₁ then b₁ else b₁ ++ [k]) s.freq_keys
            min_freq := 1 } := by
        simpa using h.symm
      exact insert_inv k v s inv.pre habs

/-- Method `get` preserves the representation invariant. -/
theorem get_inv (k : String) (s : LFUStrategy) (inv : LFUInv s) :
    LFUInv (LFUStrategy.get k s).2 := by
  unfold LFUStrategy.get
  cases hc : alookup k s.key_value with
  | none => exact inv
  | some v =>
    dsimp only
    obtain ⟨f, hf⟩ := Option.isSome_iff_exists.mp ((inv.dom k).mp (by rw [hc]; rfl))
    exact (update_freq_spec k s inv hf).1

/-- Method `delete` preserves the representation invariant. -/
theorem delete_inv (k : String) (s : LFUStrategy) (inv : LFUInv s) :
    LFUInv (LFUStrategy.delete k s) := by
  unfold LFUStrategy.delete
  cases hc : alookup k s.key_value with
  | none => exact inv
  | some v =>
    dsimp only
    have hkvne : s.key_value ≠ [] := by
      intro hnil
      rw [hnil] at hc
      exact Option.noConfusion hc
    obtain ⟨f0, hf0⟩ := Option.isSome_iff_exists.mp ((inv.dom k).mp (by rw [hc]; rfl))
    rw [hf0]
    simp only [Option.getD_some]
    obtain ⟨b0, hb0, hkb0⟩ := inv.f_b k f0 hf0
    rw [hb0]
    simp only [Option.getD_some]
    have hb0nd : b0.Nodup := inv.b_nd f0 b0 hb0
    by_cases hbe : b0.erase k = []
    · rw [if_pos hbe]
      -- the bucket contained only `k`
      have hball : ∀ x ∈ b0, x = k := by
        intro x hx
        by_contra hxk
        have : x ∈ b0.erase k := (List.Nodup.mem_erase_iff hb0nd).mpr ⟨hxk, hx⟩
        rw [hbe] at this
        simp at this
      have hFK : ∀ f', alookup f' (aerase f0 s.freq_keys) =
          if f' = f0 then none else alookup f' s.freq_keys := by
        intro f'
        by_cases hf' : f' = f0
        · rw [if_pos hf', hf', alookup_aerase_self inv.fk_nd]
        · rw [if_neg hf', alookup_aerase_ne hf']
      refine ⟨?_, ?_, ?_, ?_, ?_, ?_, ?_, ?_, ?_, ?_, ?_⟩
      · exact akeys_aerase_nodup k inv.kv_nd
      · exact akeys_aerase_nodup k inv.kf_nd
      · exact akeys_aerase_nodup f0 inv.fk_nd
      ·
        intro k'
        dsimp only
        by_cases hk' : k' = k
        · rw [hk', alookup_aerase_self inv.kv_nd, alookup_aerase_self inv.kf_nd]
          exact Iff.rfl
        · rw [alookup_aerase_ne hk', alookup_aerase_ne hk']
          exact inv.dom k'
      ·
        intro f' b hb
        dsimp only at hb
        rw [hFK f'] at hb
        by_cases hf' : f' = f0
        · rw [if_pos hf'] at hb; exact absurd hb (by simp)
        · rw [if_neg hf'] at hb; exact inv.b_ne f' b hb
      ·
        intro f' b hb
        dsimp only at hb
        rw [hFK f'] at hb
        by_cases hf' : f' = f0
        · rw [if_pos hf'] at hb; exact absurd hb (by simp)
        · rw [if_neg hf'] at hb; exact inv.b_nd f' b hb
      ·
        intro f' b k'' hb hk''
        dsimp only at hb ⊢
        rw [hFK f'] at hb
        by_cases hf' : f' = f0
        · rw [if_pos hf'] at hb; exact absurd hb (by simp)
        · rw [if_neg hf'] at hb
          have hkne : k'' ≠ k := by
            intro hEq
            exact inv.not_mem_bucket_of_freq_ne hf0 hb hf' (hEq ▸ hk'')
          rw [alookup_aerase_ne hkne]
          exact inv.b_freq f' b k'' hb hk''
      ·
        intro k'' f'' hkf''
        dsimp only at hkf'' ⊢
        have hkne : k'' ≠ k := by
          intro hEq
          rw [hEq, alookup_aerase_self inv.kf_nd] at hkf''
          exact Option.noConfusion hkf''
        rw [alookup_aerase_ne hkne] at hkf''
        obtain ⟨b2, hb2, hkb2⟩ := inv.f_b k'' f'' hkf''
        have hf'' : f'' ≠ f0 := by
          intro hEq
          rw [hEq, hb0] at hb2
          obtain rfl : b0 = b2 := Option.some_inj.mp hb2
          exact hkne (hball k'' hkb2)
        refine ⟨b2, ?_, hkb2⟩
        rw [hFK, if_neg hf'']
        exact hb2
      ·
        intro k'' f'' hkf''
        dsimp only at hkf''
        have hkne : k'' ≠ k := by
          intro hEq
          rw [hEq, alookup_aerase_self inv.kf_nd] at hkf''
          exact Option.noConfusion hkf''
        rw [alookup_aerase_ne hkne] at hkf''
        exact inv.f_pos k'' f'' hkf''
      ·
        intro f' hf'
        dsimp only at hf' ⊢
        obtain ⟨b, hb⟩ := Option.isSome_iff_exists.mp hf'
        rw [hFK f'] at hb
        by_cases hf'' : f' = f0
        · rw [if_pos hf''] at hb; exact absurd hb (by simp)
        · rw [if_neg hf''] at hb
          have hfmem : f' ∈ akeys (aerase f0 s.freq_keys) := by
            rw [← alookup_isSome_iff_mem_akeys, hFK, if_neg hf'', hb]
            rfl
          by_cases hmf : s.min_freq = f0
          · rw [if_pos hmf]
            cases hak : akeys (aerase f0 s.freq_keys) with
            | nil => rw [hak] at hfmem; simp at hfmem
            | cons g gs =>
              rw [hak] at hfmem
              exact foldl_min_le gs g f' hfmem
          · rw [if_neg hmf]
            exact inv.mf_le f' (by rw [hb]; rfl)
      ·
        intro hne
        dsimp only at hne ⊢
        obtain ⟨k2, hk2⟩ := exists_alookup_isSome_of_ne_nil hne
        have hk2ne : k2 ≠ k := by
          intro hEq
          rw [hEq, alookup_aerase_self inv.kv_nd] at hk2
          simp at hk2
        rw [alookup_aerase_ne hk2ne] at hk2
        obtain ⟨f2, hf2⟩ := Option.isSome_iff_exists.mp ((inv.dom k2).mp hk2)
        obtain ⟨b2, hb2, hkb2⟩ := inv.f_b k2 f2 hf2
        have hf2ne : f2 ≠ f0 := by
          intro hEq
          rw [hEq, hb0] at hb2
          obtain rfl : b0 = b2 := Option.some_inj.mp hb2
          exact hk2ne (hball k2 hkb2)
        have hfmem : f2 ∈ akeys (aerase f0 s.freq_keys) := by
          rw [← alookup_isSome_iff_mem_akeys, hFK, if_neg hf2ne, hb2]
          rfl
        by_cases hmf : s.min_freq = f0
        · rw [if_pos hmf]
          cases hak : akeys (aerase f0 s.freq_keys) with
          | nil => rw [hak] at hfmem; simp at hfmem
          | cons g gs =>
            rw [alookup_isSome_iff_mem_akeys, hak]
            exact foldl_min_mem gs g
        · rw [if_neg hmf]
          rw [hFK, if_neg hmf]
          exact inv.mf_mem hkvne
    · rw [if_neg hbe]
      have hFK : ∀ f', alookup f' (aupsert f0 (b0.erase k) s.freq_keys) =
          if f' = f0 then some (b0.erase k) else alookup f' s.freq_keys := by
        intro f'
        by_cases hf' : f' = f0
        · rw [if_pos hf', hf', alookup_aupsert_self]
        · rw [if_neg hf', alookup_aupsert_ne hf']
      refine ⟨?_, ?_, ?_, ?_, ?_, ?_, ?_, ?_, ?_, ?_, ?_⟩
      · exact akeys_aerase_nodup k inv.kv_nd
      · exact akeys_aerase_nodup k inv.kf_nd
      · exact akeys_aupsert_nodup (b0.erase k) inv.fk_nd
      ·
        intro k'
        dsimp only
        by_cases hk' : k' = k
        · rw [hk', alookup_aerase_self inv.kv_nd, alookup_aerase_self inv.kf_nd]
          exact Iff.rfl
        · rw [alookup_aerase_ne hk', alookup_aerase_ne hk']
          exact inv.dom k'
      ·
        intro f' b hb
        dsimp only at hb
        rw [hFK f'] at hb
        by_cases hf' : f' = f0
        · rw [if_pos hf'] at hb
          obtain rfl : b0.erase k = b := Option.some_inj.mp hb
          exact hbe
        · rw [if_neg hf'] at hb
          exact inv.b_ne f' b hb
      ·
        intro f' b hb
        dsimp only at hb
        rw [hFK f'] at hb
        by_cases hf' : f' = f0
        · rw [if_pos hf'] at hb
          obtain rfl : b0.erase k = b := Option.some_inj.mp hb
          exact hb0nd.erase k
        · rw [if_neg hf'] at hb
          exact inv.b_nd f' b hb
      ·
        intro f' b k'' hb hk''
        dsimp only at hb ⊢
        rw [hFK f'] at hb
        by_cases hf' : f' = f0
        · rw [if_pos hf'] at hb
          obtain rfl : b0.erase k = b := Option.some_inj.mp hb
          have hkne : k'' ≠ k := ((List.Nodup.mem_erase_iff hb0nd).mp hk'').1
          rw [alookup_aerase_ne hkne, hf']
          exact inv.b_freq f0 b0 k'' hb0 (List.mem_of_mem_erase hk'')
        · rw [if_neg hf'] at hb
          have hkne : k'' ≠ k := by
            intro hEq
            exact inv.not_mem_bucket_of_freq_ne hf0 hb hf' (hEq ▸ hk'')
          rw [alookup_aerase_ne hkne]
          exact inv.b_freq f' b k'' hb hk''
      ·
        intro k'' f'' hkf''
        dsimp only at hkf'' ⊢
        have hkne : k'' ≠ k := by
          intro hEq
          rw [hEq, alookup_aerase_self inv.kf_nd] at hkf''
          exact Option.noConfusion hkf''
        rw [alookup_aerase_ne hkne] at hkf''
        obtain ⟨b2, hb2, hkb2⟩ := inv.f_b k'' f'' hkf''
        by_cases hf'' : f'' = f0
        · refine ⟨b0.erase k, ?_, ?_⟩
          · rw [hFK, if_pos hf'']
          · have hb02 : b0 = b2 := by
              rw [hf'', hb0] at hb2
              exact Option.some_inj.mp hb2
            exact (List.Nodup.mem_erase_iff hb0nd).mpr ⟨hkne, hb02 ▸ hkb2⟩
        · refine ⟨b2, ?_, hkb2⟩
          rw [hFK, if_neg hf'']
          exact hb2
      ·
        intro k'' f'' hkf''
        dsimp only at hkf''
        have hkne : k'' ≠ k := by
          intro hEq
          rw [hEq, alookup_aerase_self inv.kf_nd] at hkf''
          exact Option.noConfusion hkf''
        rw [alookup_aerase_ne hkne] at hkf''
        exact inv.f_pos k'' f'' hkf''
      ·
        intro f' hf'
        dsimp only at hf' ⊢
        obtain ⟨b, hb⟩ := Option.isSome_iff_exists.mp hf'
        rw [hFK f'] at hb
        by_cases hf'' : f' = f0
        · have := inv.mf_le f0 (by rw [hb0]; rfl)
          omega
        · rw [if_neg hf''] at hb
          exact inv.mf_le f' (by rw [hb]; rfl)
      ·
        intro hne
        dsimp only at hne ⊢
        by_cases hmf : s.min_freq = f0
        · rw [hFK, if_pos hmf]
          rfl
        · rw [hFK, if_neg hmf]
          exact inv.mf_mem hkvne

/-- Every reachable LFU state satisfies the representation invariant. -/
theorem reachable_inv {s : LFUStrategy} (h : ReachableLFU s) : LFUInv s := by
  induction h with
  | init c => exact LFUInv.init c
  | get k hr ih => exact get_inv k _ ih
  | put k v hr hp ih => exact put_inv k v _ ih hp
  | del k hr ih => exact delete_inv k _ ih

/-! ## Claim theorems -/

/-- C1: in a reachable LFU state at capacity (capacity ≥ 1), a `put` of an
absent key evicts exactly the oldest-inserted key of the `min_freq` bucket
(its head), removes it from the value store, the frequency map, and every
bucket, and reports the evicted pair; in particular with capacity 2,
put a, put b, put c evicts a. -/
theorem lfu_put_evicts_minfreq_head (s : LFUStrategy) (k v : String)
    (hr : ReachableLFU s) (hcap : 1 ≤ s.capacity)
    (habs : alookup k s.key_value = none)
    (hfull : s.key_value.length = s.capacity) :
    (∃ lfu rest w s',
      alookup s.min_freq s.freq_keys = some (lfu :: rest) ∧
      alookup lfu s.key_value = some w ∧
      LFUStrategy.put k v s = some (some (lfu, w), s') ∧
      alookup lfu s'.key_value = none ∧
      alookup lfu s'.key_freq = none ∧
      (∀ f b, alookup f s'.freq_keys = some b → lfu ∉ b)) ∧
    (runPuts [("a", "1"), ("b", "2"), ("c", "3")] (LFUStrategy.init 2)).map Prod.fst =
      some [none, none, some ("a", "1")] := by
  have inv := reachable_inv hr
  have hkvne : s.key_value ≠ [] := by
    intro hnil
    rw [hnil, List.length_nil] at hfull
    omega
  refine ⟨?_, rfl⟩
  obtain ⟨bm, hbm⟩ := Option.isSome_iff_exists.mp (inv.mf_mem hkvne)
  obtain ⟨lfu, rest, rfl⟩ : ∃ lfu rest, bm = lfu :: rest := by
    cases bm with
    | nil => exact absurd rfl (inv.b_ne s.min_freq [] hbm)
    | cons a b => exact ⟨a, b, rfl⟩
  have hlfukf : alookup lfu s.key_freq = some s.min_freq :=
    inv.b_freq s.min_freq (lfu :: rest) lfu hbm (by simp)
  have hlfurest : lfu ∉ rest :=
    (List.nodup_cons.mp (inv.b_nd s.min_freq (lfu :: rest) hbm)).1
  obtain ⟨w, hw⟩ := Option.isSome_iff_exists.mp ((inv.dom lfu).mpr (by rw [hlfukf]; rfl))
  have hlfune : lfu ≠ k := by
    intro hEq
    rw [hEq, habs] at hw
    exact Option.noConfusion hw
  have hle : s.capacity ≤ s.key_value.length := le_of_eq hfull.symm
  have hgd : (alookup s.min_freq s.freq_keys).getD [] = lfu :: rest := by
    rw [hbm]; rfl
  have hput : LFUStrategy.put k v s =
      some (some (lfu, w),
        { s with
          key_value := aupsert k v (aerase lfu s.key_value)
          key_freq := aupsert k 1 (aerase lfu s.key_freq)
          freq_keys :=
            aupsert 1
              (let b₁ := (alookup 1 (if rest = [] then aerase s.min_freq s.freq_keys
                  else aupsert s.min_freq rest s.freq_keys)).getD []
                if k ∈ b₁ then b₁ else b₁ ++ [k])
              (if rest = [] then aerase s.min_freq s.freq_keys
                else aupsert s.min_freq rest s.freq_keys)
          min_freq := 1 }) := by
    unfold LFUStrategy.put
    rw [if_neg (by simp [habs]), if_pos hle, hgd]
    dsimp only
    rw [hw]
  have hFK1 : ∀ f', alookup f'
      (if rest = [] then aerase s.min_freq s.freq_keys
        else aupsert s.min_freq rest s.freq_keys) =
      if f' = s.min_freq
        then (if rest = [] then none else some rest)
        else alookup f' s.freq_keys := by
    intro f'
    by_cases hf' : f' = s.min_freq
    · rw [if_pos hf']
      by_cases hre : rest = []
      · rw [if_pos hre, if_pos hre, hf', alookup_aerase_self inv.fk_nd]
      · rw [if_neg hre, if_neg hre, hf', alookup_aupsert_self]
    · rw [if_neg hf']
      by_cases hre : rest = []
      · rw [if_pos hre, alookup_aerase_ne hf']
      · rw [if_neg hre, alookup_aupsert_ne hf']
  have hlfub1 : lfu ∉ (alookup 1 (if rest = [] then aerase s.min_freq s.freq_keys
      else aupsert s.min_freq rest s.freq_keys)).getD [] := by
    rw [hFK1 1]
    by_cases hmf1 : (1 : Nat) = s.min_freq
    · rw [if_pos hmf1]
      by_cases hre : rest = []
      · rw [if_pos hre]; simp
      · rw [if_neg hre]; simpa using hlfurest
    · rw [if_neg hmf1]
      cases hcb : alookup 1 s.freq_keys with
      | none => simp
      | some c =>
        simp only [Option.getD_some]
        exact inv.not_mem_bucket_of_freq_ne hlfukf hcb hmf1
  refine ⟨lfu, rest, w, _, hbm, hw, hput, ?_, ?_, ?_⟩
  · dsimp only
    rw [alookup_aupsert_ne hlfune, alookup_aerase_self inv.kv_nd]
  · dsimp only
    rw [alookup_aupsert_ne hlfune, alookup_aerase_self inv.kf_nd]
  · intro f b hb
    dsimp only at hb
    by_cases hf1 : f = 1
    · rw [hf1, alookup_aupsert_self] at hb
      obtain rfl : (let b₁ := (alookup 1 (if rest = [] then aerase s.min_freq s.freq_keys
          else aupsert s.min_freq rest s.freq_keys)).getD []
        if k ∈ b₁ then b₁ else b₁ ++ [k]) = b := Option.some_inj.mp hb
      dsimp only
      by_cases hkb : k ∈ (alookup 1 (if rest = [] then aerase s.min_freq s.freq_keys
          else aupsert s.min_freq rest s.freq_keys)).getD []
      · rw [if_pos hkb]
        exact hlfub1
      · rw [if_neg hkb]
        intro hmem
        rcases List.mem_append.mp hmem with hm | hm
        · exact hlfub1 hm
        · exact hlfune (List.mem_singleton.mp hm)
    · rw [alookup_aupsert_ne hf1, hFK1 f] at hb
      by_cases hfm : f = s.min_freq
      · rw [if_pos hfm] at hb
        by_cases hre : rest = []
        · rw [if_pos hre] at hb
          exact absurd hb (by simp)
        · rw [if_neg hre] at hb
          obtain rfl : rest = b := Option.some_inj.mp hb
          exact hlfurest
      · rw [if_neg hfm] at hb
        exact inv.not_mem_bucket_of_freq_ne hlfukf hb hfm

/-- C1 witness: at capacity 2 holding a and b (both frequency 1), putting c
evicts a, the head of the minimum-frequency bucket. -/
theorem lfu_put_evicts_minfreq_head_witness :
    ((∃ lfu rest w s',
      alookup (⟨2, [("a", "1"), ("b", "2")], [("a", 1), ("b", 1)],
          [(1, ["a", "b"])], 1⟩ : LFUStrategy).min_freq
          (⟨2, [("a", "1"), ("b", "2")], [("a", 1), ("b", 1)],
            [(1, ["a", "b"])], 1⟩ : LFUStrategy).freq_keys = some (lfu :: rest) ∧
      alookup lfu (⟨2, [("a", "1"), ("b", "2")], [("a", 1), ("b", 1)],
          [(1, ["a", "b"])], 1⟩ : LFUStrategy).key_value = some w ∧
      LFUStrategy.put "c" "3" (⟨2, [("a", "1"), ("b", "2")], [("a", 1), ("b", 1)],
          [(1, ["a", "b"])], 1⟩ : LFUStrategy) = some (some (lfu, w), s') ∧
      alookup lfu s'.key_value = none ∧
      alookup lfu s'.key_freq = none ∧
      (∀ f b, alookup f s'.freq_keys = some b → lfu ∉ b)) ∧
    (runPuts [("a", "1"), ("b", "2"), ("c", "3")] (LFUStrategy.init 2)).map Prod.fst =
      some [none, none, some ("a", "1")]) :=
  lfu_put_evicts_minfreq_head
    (⟨2, [("a", "1"), ("b", "2")], [("a", 1), ("b", 1)], [(1, ["a", "b"])], 1⟩ :
      LFUStrategy) "c" "3"
    (ReachableLFU.put "b" "2" (ReachableLFU.put "a" "1" (ReachableLFU.init 2) rfl) rfl)
    (by decide) rfl rfl

/-- C3: `get` on an absent key reports absent without side effects; `get` on
a present key returns its value, bumps its frequency by exactly one, appends
it at the tail of the bucket for the new frequency, increments `min_freq` by
exactly one iff the vacated bucket was the minimum bucket and became empty,
and never touches the value store; with capacity 2, after put a, put b,
get a, a put of c evicts b. -/
theorem lfu_get_bumps_frequency (s : LFUStrategy) (k : String) (hr : ReachableLFU s) :
    (alookup k s.key_value = none → LFUStrategy.get k s = (none, s)) ∧
    (∀ v, alookup k s.key_value = some v →
      ∃ f, alookup k s.key_freq = some f ∧
        (LFUStrategy.get k s).1 = some v ∧
        alookup k (LFUStrategy.get k s).2.key_freq = some (f + 1) ∧
        alookup (f + 1) (LFUStrategy.get k s).2.freq_keys =
          some ((alookup (f + 1) s.freq_keys).getD [] ++ [k]) ∧
        (LFUStrategy.get k s).2.min_freq =
          (if ((alookup f s.freq_keys).getD []).erase k = [] ∧ s.min_freq = f
            then s.min_freq + 1 else s.min_freq) ∧
        (LFUStrategy.get k s).2.key_value = s.key_value) ∧
    ((runPuts [("a", "1"), ("b", "2")] (LFUStrategy.init 2)).bind
        (fun p => LFUStrategy.put "c" "3" (LFUStrategy.get "a" p.2).2)).map Prod.fst =
      some (some ("b", "2")) := by
  have inv := reachable_inv hr
  refine ⟨?_, ?_, rfl⟩
  · intro habs
    unfold LFUStrategy.get
    rw [habs]
  · intro v hv
    obtain ⟨f, hf⟩ := Option.isSome_iff_exists.mp ((inv.dom k).mp (by rw [hv]; rfl))
    obtain ⟨-, h2, -, h4, h5⟩ := update_freq_spec k s inv hf
    have hget : LFUStrategy.get k s = (some v, LFUStrategy.update_freq k s) := by
      unfold LFUStrategy.get
      rw [hv]
    refine ⟨f, hf, ?_, ?_, ?_, ?_, ?_⟩
    · rw [hget]
    · rw [hget]; exact h2
    · rw [hget]; exact h4
    · rw [hget]; exact h5
    · rw [hget]; rfl

/-- C3 witness: with a and b both at frequency 1, `get a` returns its value,
moves a to the tail of the (fresh) frequency-2 bucket, and leaves
`min_freq` at 1 because the vacated bucket still holds b. -/
theorem lfu_get_bumps_frequency_witness :
    ∃ f, alookup "a" (⟨2, [("a", "1"), ("b", "2")], [("a", 1), ("b", 1)],
        [(1, ["a", "b"])], 1⟩ : LFUStrategy).key_freq = some f ∧
      (LFUStrategy.get "a" (⟨2, [("a", "1"), ("b", "2")], [("a", 1), ("b", 1)],
        [(1, ["a", "b"])], 1⟩ : LFUStrategy)).1 = some "1" ∧
      alookup "a" (LFUStrategy.get "a" (⟨2, [("a", "1"), ("b", "2")],
        [("a", 1), ("b", 1)], [(1, ["a", "b"])], 1⟩ : LFUStrategy)).2.key_freq =
        some (f + 1) ∧
      alookup (f + 1) (LFUStrategy.get "a" (⟨2, [("a", "1"), ("b", "2")],
        [("a", 1), ("b", 1)], [(1, ["a", "b"])], 1⟩ : LFUStrategy)).2.freq_keys =
        some ((alookup (f + 1) (⟨2, [("a", "1"), ("b", "2")], [("a", 1), ("b", 1)],
          [(1, ["a", "b"])], 1⟩ : LFUStrategy).freq_keys).getD [] ++ ["a"]) ∧
      (LFUStrategy.get "a" (⟨2, [("a", "1"), ("b", "2")], [("a", 1), ("b", 1)],
        [(1, ["a", "b"])], 1⟩ : LFUStrategy)).2.min_freq =
        (if ((alookup f (⟨2, [("a", "1"), ("b", "2")], [("a", 1), ("b", 1)],
            [(1, ["a", "b"])], 1⟩ : LFUStrategy).freq_keys).getD []).erase "a" = [] ∧
            (⟨2, [("a", "1"), ("b", "2")], [("a", 1), ("b", 1)],
              [(1, ["a", "b"])], 1⟩ : LFUStrategy).min_freq = f
          then (⟨2, [("a", "1"), ("b", "2")], [("a", 1), ("b", 1)],
            [(1, ["a", "b"])], 1⟩ : LFUStrategy).min_freq + 1
          else (⟨2, [("a", "1"), ("b", "2")], [("a", 1), ("b", 1)],
            [(1, ["a", "b"])], 1⟩ : LFUStrategy).min_freq) ∧
      (LFUStrategy.get "a" (⟨2, [("a", "1"), ("b", "2")], [("a", 1), ("b", 1)],
        [(1, ["a", "b"])], 1⟩ : LFUStrategy)).2.key_value =
        (⟨2, [("a", "1"), ("b", "2")], [("a", 1), ("b", 1)],
          [(1, ["a", "b"])], 1⟩ : LFUStrategy).key_value :=
  (lfu_get_bumps_frequency
    (⟨2, [("a", "1"), ("b", "2")], [("a", 1), ("b", 1)], [(1, ["a", "b"])], 1⟩ :
      LFUStrategy) "a"
    (ReachableLFU.put "b" "2" (ReachableLFU.put "a" "1"
      (ReachableLFU.init 2) rfl) rfl)).2.1 "1" rfl

/-- C8: in every reachable LFU state (capacity ≥ 1) with a non-empty value
store, the bucket at `min_freq` exists and is non-empty, and no bucket with
a smaller frequency exists; reachability is closed under `get`, `put` and
`delete`, so every operation preserves this invariant. -/
theorem lfu_minfreq_invariant (s : LFUStrategy) (hr : ReachableLFU s)
    (hcap : 1 ≤ s.capacity) (hne : s.key_value ≠ []) :
    ∃ b, alookup s.min_freq s.freq_keys = some b ∧ b ≠ [] ∧
      ∀ f b', alookup f s.freq_keys = some b' → s.min_freq ≤ f := by
  have inv := reachable_inv hr
  obtain ⟨b, hb⟩ := Option.isSome_iff_exists.mp (inv.mf_mem hne)
  exact ⟨b, hb, inv.b_ne s.min_freq b hb,
    fun f b' hb' => inv.mf_le f (by rw [hb']; rfl)⟩

/-- C8 witness: after one put on a fresh capacity-2 instance, `min_freq` is
1, its bucket is the non-empty `["a"]`, and it is the only bucket. -/
theorem lfu_minfreq_invariant_witness :
    ∃ b, alookup (⟨2, [("a", "x")], [("a", 1)], [(1, ["a"])], 1⟩ :
        LFUStrategy).min_freq
        (⟨2, [("a", "x")], [("a", 1)], [(1, ["a"])], 1⟩ : LFUStrategy).freq_keys =
        some b ∧ b ≠ [] ∧
      ∀ f b', alookup f (⟨2, [("a", "x")], [("a", 1)], [(1, ["a"])], 1⟩ :
        LFUStrategy).freq_keys = some b' →
        (⟨2, [("a", "x")], [("a", 1)], [(1, ["a"])], 1⟩ : LFUStrategy).min_freq ≤ f :=
  lfu_minfreq_invariant
    (⟨2, [("a", "x")], [("a", 1)], [(1, ["a"])], 1⟩ : LFUStrategy)
    (ReachableLFU.put "a" "x" (ReachableLFU.init 2) rfl) (by decide) (by decide)

/-- C2: for every sequence of `put`s on a single LFU tier in which the
number of distinct keys does not exceed the capacity, every `put` succeeds
and reports no eviction, and a subsequent `get` of any inserted key returns
that key's last-written value; moreover, any `put` overwriting a present key
replaces its value, bumps its frequency by exactly one, and reports no
eviction. -/
theorem lfu_puts_within_capacity_get_last_written (capacity : Nat)
    (ops : List (String × String)) (k : String)
    (hcap : (ops.map Prod.fst).toFinset.card ≤ capacity)
    (hk : k ∈ ops.map Prod.fst) :
    (∃ evs s w, runPuts ops (LFUStrategy.init capacity) = some (evs, s) ∧
      (∀ ev ∈ evs, ev = none) ∧
      lastWritten k ops = some w ∧
      (LFUStrategy.get k s).1 = some w) ∧
    (∀ (t : LFUStrategy) (k' v' u : String) (f : Nat),
      alookup k' t.key_value = some u → alookup k' t.key_freq = some f →
      ∃ t', LFUStrategy.put k' v' t = some (none, t') ∧
        alookup k' t'.key_value = some v' ∧ alookup k' t'.key_freq = some (f + 1)) := by
  constructor
  · have hroom : (LFUStrategy.init capacity).key_value.length +
        newKeys (akeys (LFUStrategy.init capacity).key_value) ops ≤
        (LFUStrategy.init capacity).capacity := by
      simp only [LFUStrategy.init, List.length_nil, akeys_nil, Nat.zero_add]
      rw [newKeys_eq_card]
      simpa using hcap
    obtain ⟨evs, s, hrun, hevs, -, -, -, hlook⟩ :=
      runPuts_spec ops (LFUStrategy.init capacity) (by simp [LFUStrategy.init, akeys]) hroom
    obtain ⟨w, hw⟩ := Option.isSome_iff_exists.mp (lastWritten_isSome_of_mem hk)
    refine ⟨evs, s, w, hrun, hevs, hw, ?_⟩
    rw [LFUStrategy.get_fst, hlook k, hw]
  · intro t k' v' u f hku hkf
    obtain ⟨t', hput, hkv, -, hfreq⟩ := LFUStrategy.put_present k' v' u t hku
    refine ⟨t', hput, ?_, hfreq f hkf⟩
    rw [hkv]
    exact alookup_aupsert_self k' v' t.key_value

/-- C2 witness: capacity 2, puts a:=1, b:=2, a:=3; get a returns 3. -/
theorem lfu_puts_within_capacity_witness :
    (["a", "b", "a"].toFinset.card ≤ 2 ∧ "a" ∈ ["a", "b", "a"]) ∧
    ((∃ evs s w,
        runPuts [("a", "1"), ("b", "2"), ("a", "3")] (LFUStrategy.init 2) = some (evs, s) ∧
        (∀ ev ∈ evs, ev = none) ∧
        lastWritten "a" [("a", "1"), ("b", "2"), ("a", "3")] = some w ∧
        (LFUStrategy.get "a" s).1 = some w) ∧
      (∀ (t : LFUStrategy) (k' v' u : String) (f : Nat),
        alookup k' t.key_value = some u → alookup k' t.key_freq = some f →
        ∃ t', LFUStrategy.put k' v' t = some (none, t') ∧
          alookup k' t'.key_value = some v' ∧ alookup k' t'.key_freq = some (f + 1))) :=
  ⟨⟨by decide, by decide⟩,
    lfu_puts_within_capacity_get_last_written 2 [("a", "1"), ("b", "2"), ("a", "3")] "a"
      (by decide) (by decide)⟩

/-- C4 counterexample: on a cache with `max_levels = 2`, capacities `[1, 2]`,
the sequence write a, write b, read a leaves key `a` simultaneously present
in tier 0 and in tier 1 — the uniqueness claim fails on the read-promotion
path. -/
theorem ml_key_in_two_tiers_counterexample :
    ((MultiLevelCache.init 2 [1, 2]).bind
        (runOps [MLOp.write "a" "va", MLOp.write "b" "vb", MLOp.read "a"])).map
      (fun s =>
        ((s.levels.get? 0).map (fun t => alookup "a" t.key_value),
         (s.levels.get? 1).map (fun t => alookup "a" t.key_value))) =
      some (some (some "va"), some (some "va")) := rfl

/-- C4 (amended): within each single tier a key is stored at most once, in
every state reachable by any operation sequence from a fresh cache (the
original cross-tier uniqueness fails: read-promotion and overwrites leave
stale duplicates in slower tiers). -/
theorem ml_key_unique_within_tier (max_levels : Nat) (capacities : List Nat)
    (ops : List MLOp) {c₀ s : MultiLevelCache}
    (hinit : MultiLevelCache.init max_levels capacities = some c₀)
    (hrun : runOps ops c₀ = some s) :
    ∀ t ∈ s.levels, (akeys t.key_value).Nodup :=
  (runOps_agrees ops (agrees_init max_levels capacities hinit) hrun).1

/-- C4 (amended) witness: the per-tier stores of the duplicate-carrying
state reached by write a, write b, read a have no repeated keys. -/
theorem ml_key_unique_within_tier_witness :
    (akeys (⟨2, [("a", "va"), ("b", "vb")], [("a", 2), ("b", 1)],
        [(2, ["a"]), (1, ["b"])], 1⟩ : CacheLevel).key_value).Nodup :=
  ml_key_unique_within_tier 2 [1, 2]
    [MLOp.write "a" "va", MLOp.write "b" "vb", MLOp.read "a"] rfl rfl
    (⟨2, [("a", "va"), ("b", "vb")], [("a", 2), ("b", 1)],
      [(2, ["a"]), (1, ["b"])], 1⟩ : CacheLevel) (by decide)

/-- C5: if `read` finds the key (the first level misses, so at some tier
index i > 0), it returns that value and afterwards the key resides in tier 0
with that value; the copy at the source tier is not removed. -/
theorem ml_read_promotes_to_tier0 (s : MultiLevelCache) (k v : String)
    (t0 : CacheLevel) {s' : MultiLevelCache}
    (hcaps : ∀ c ∈ s.capacities, 1 ≤ c)
    (hlen : s.max_levels ≤ s.capacities.length)
    (hhead : s.levels.head? = some t0)
    (hmiss0 : alookup k t0.key_value = none)
    (hread : MultiLevelCache.read k s = some (some v, s')) :
    ∃ t0' rest', s'.levels = t0' :: rest' ∧ alookup k t0'.key_value = some v := by
  obtain ⟨rest, hlev⟩ : ∃ rest, s.levels = t0 :: rest := by
    cases hl : s.levels with
    | nil => rw [hl] at hhead; exact absurd hhead (by simp)
    | cons a b =>
      rw [hl] at hhead
      exact ⟨b, by rw [Option.some_inj.mp hhead]⟩
  have hg : LFUStrategy.get k t0 = (none, t0) := by
    unfold LFUStrategy.get
    rw [hmiss0]
  unfold MultiLevelCache.read at hread
  cases hfh : MultiLevelCache.findHit k s.levels with
  | none =>
    rw [hfh] at hread
    exact absurd (by simpa using hread : (none : Option String) = some v ∧ s = s')
      (by simp)
  | some pr =>
    obtain ⟨i, v₀, ls⟩ := pr
    rw [hfh] at hread
    dsimp only at hread
    have hfh' := hfh
    rw [hlev, MultiLevelCache.findHit, hg] at hfh'
    dsimp only at hfh'
    cases hfr : MultiLevelCache.findHit k rest with
    | none => rw [hfr] at hfh'; exact absurd hfh' (by simp)
    | some pr₂ =>
      obtain ⟨i₂, v₂, ls₂⟩ := pr₂
      rw [hfr] at hfh'
      obtain ⟨hi₂, -, hls⟩ : i₂ + 1 = i ∧ v₂ = v₀ ∧ t0 :: ls₂ = ls := by simpa using hfh'
      have hi : i ≠ 0 := by omega
      rw [if_neg hi] at hread
      cases hw : MultiLevelCache.write k v₀ { s with levels := ls } with
      | none => rw [hw] at hread; exact absurd hread (by simp)
      | some s'' =>
        rw [hw] at hread
        obtain ⟨h1, rfl⟩ : some v₀ = some v ∧ s'' = s' := by simpa using hread
        have hv : v₀ = v := Option.some_inj.mp h1
        rw [← hv]
        exact MultiLevelCache.write_head k v₀ { s with levels := ls } hw t0 ls₂
          (by simp [← hls])

/-- C5 witness: key a found only in tier 1 is, after `read`, resident in
tier 0. -/
theorem ml_read_promotes_witness :
    (∀ c ∈ [1, 2], 1 ≤ c) ∧ (2 : Nat) ≤ 2 ∧
    (∃ t0' rest',
      (⟨[⟨1, [("a", "va")], [("a", 1)], [(1, ["a"])], 1⟩,
         ⟨2, [("a", "va"), ("b", "vb")], [("a", 2), ("b", 1)],
          [(2, ["a"]), (1, ["b"])], 1⟩], 2, [1, 2]⟩ : MultiLevelCache).levels =
          t0' :: rest' ∧
        alookup "a" t0'.key_value = some "va") := by
  refine ⟨by decide, by decide, ?_⟩
  exact ml_read_promotes_to_tier0
    (⟨[⟨1, [("b", "vb")], [("b", 1)], [(1, ["b"])], 1⟩,
       ⟨2, [("a", "va")], [("a", 1)], [(1, ["a"])], 1⟩], 2, [1, 2]⟩ : MultiLevelCache)
    "a" "va" ⟨1, [("b", "vb")], [("b", 1)], [(1, ["b"])], 1⟩
    (by decide) (by decide) rfl rfl rfl

/-- C6: when the cache already has `max_levels` tiers and every tier's `put`
reports an eviction during the cascade, the `write` completes without
raising, creates no new tier, and the final state is exactly the state left
by the cascade — the entry evicted from the last tier is discarded, not
reinserted anywhere. -/
theorem ml_write_at_capacity_drops (s : MultiLevelCache) (k v : String)
    (e : String × String) (ls : List CacheLevel)
    (hmax : s.levels.length = s.max_levels)
    (hc : MultiLevelCache.cascade (k, v) s.levels = some (some e, ls)) :
    MultiLevelCache.write k v s = some { s with levels := ls } ∧
    ls.length = s.max_levels := by
  have hlen : ls.length = s.max_levels :=
    (MultiLevelCache.cascade_length (k, v) s.levels hc).trans hmax
  refine ⟨?_, hlen⟩
  unfold MultiLevelCache.write
  rw [hc]
  dsimp only
  rw [if_neg (by omega)]

/-- C6 witness: capacities [1, 1], tiers full with b and a; writing c evicts
b from tier 0 into tier 1, evicting a, which is permanently dropped. -/
theorem ml_write_at_capacity_drops_witness :
    MultiLevelCache.write "c" "3"
        (⟨[⟨1, [("b", "2")], [("b", 1)], [(1, ["b"])], 1⟩,
           ⟨1, [("a", "1")], [("a", 1)], [(1, ["a"])], 1⟩], 2, [1, 1]⟩ : MultiLevelCache) =
      some (⟨[⟨1, [("c", "3")], [("c", 1)], [(1, ["c"])], 1⟩,
              ⟨1, [("b", "2")], [("b", 1)], [(1, ["b"])], 1⟩], 2, [1, 1]⟩ : MultiLevelCache) ∧
    ([⟨1, [("c", "3")], [("c", 1)], [(1, ["c"])], 1⟩,
      ⟨1, [("b", "2")], [("b", 1)], [(1, ["b"])], 1⟩] : List CacheLevel).length = 2 :=
  ml_write_at_capacity_drops
    (⟨[⟨1, [("b", "2")], [("b", 1)], [(1, ["b"])], 1⟩,
       ⟨1, [("a", "1")], [("a", 1)], [(1, ["a"])], 1⟩], 2, [1, 1]⟩ : MultiLevelCache)
    "c" "3" ("a", "1")
    [⟨1, [("c", "3")], [("c", 1)], [(1, ["c"])], 1⟩,
     ⟨1, [("b", "2")], [("b", 1)], [(1, ["b"])], 1⟩] rfl rfl

/-- C7 fails in the code: on a tier with capacity 0 the first `put` reaches
`self.freq_keys[self.min_freq].popitem(last=False)` on the empty bucket the
`defaultdict` just created and raises `KeyError` instead of evicting the
just-inserted item. -/
theorem lfu_put_capacity_zero_raises :
    LFUStrategy.put "a" "x" (LFUStrategy.init 0) = none := rfl

/-- C10: whenever `read` returns a value after any successful operation
sequence from a fresh cache, that value is the one recorded by the most
recent `write` of the key not followed by a `delete` of it. -/
theorem ml_no_stale_reads (max_levels : Nat) (capacities : List Nat)
    (ops : List MLOp) (k v : String) {c₀ s s' : MultiLevelCache}
    (hcaps : ∀ c ∈ capacities, 1 ≤ c)
    (hlen : max_levels ≤ capacities.length)
    (hinit : MultiLevelCache.init max_levels capacities = some c₀)
    (hrun : runOps ops c₀ = some s)
    (hread : MultiLevelCache.read k s = some (some v, s')) :
    alookup k (lastWriteStore ops []) = some v :=
  (agrees_read (runOps_agrees ops (agrees_init max_levels capacities hinit) hrun)
    hread).2 v rfl

/-- C10 witness: one tier of capacity 2, write a:=1 then read a returns 1 =
the last-written value. -/
theorem ml_no_stale_reads_witness :
    (∀ c ∈ [2], 1 ≤ c) ∧ (1 : Nat) ≤ 1 ∧
    alookup "a" (lastWriteStore [MLOp.write "a" "1"] []) = some "1" :=
  ⟨by decide, by decide,
    @ml_no_stale_reads 1 [2] [MLOp.write "a" "1"] "a" "1"
      (⟨[⟨2, [], [], [], 0⟩], 1, [2]⟩ : MultiLevelCache)
      (⟨[⟨2, [("a", "1")], [("a", 1)], [(1, ["a"])], 1⟩], 1, [2]⟩ : MultiLevelCache)
      (⟨[⟨2, [("a", "1")], [("a", 2)], [(2, ["a"])], 2⟩], 1, [2]⟩ : MultiLevelCache)
      (by decide) (by decide) rfl rfl rfl⟩

end MLCacheSpec

namespace BookingSpec

open MLCacheSpec (alookup aupsert aerase)

/-- C9: `book_table` is atomic on failure and lock-safe on every path: the
set of held slot locks after the call equals the set before it (the lock,
once acquired, is always released, and a failed acquisition acquires
nothing), and whenever the call returns an error — validation failure,
unknown venue, lock timeout, or no tables — the venue map (hence every
per-slot availability count) and the recorded bookings are exactly as
before the call. -/
theorem book_table_atomic (sys : BookingSystem) (user_id venue_id : String)
    (slot_dt : DateTime) (num_people : Int) (today : Nat) (new_id : String)
    (now : DateTime) (acquire_ok : Bool) :
    (sys.book_table user_id venue_id slot_dt num_people today new_id now
        acquire_ok).2.held_locks = sys.held_locks ∧
    ∀ e, (sys.book_table user_id venue_id slot_dt num_people today new_id now
        acquire_ok).1 = .error e →
      (sys.book_table user_id venue_id slot_dt num_people today new_id now
          acquire_ok).2.venues = sys.venues ∧
      (sys.book_table user_id venue_id slot_dt num_people today new_id now
          acquire_ok).2.bookings = sys.bookings := by
  unfold BookingSystem.book_table
  by_cases h1 : num_people ≤ 0
  · rw [if_pos h1]
    exact ⟨rfl, fun e _ => ⟨rfl, rfl⟩⟩
  · rw [if_neg h1]
    by_cases h2 : ¬ sys.is_within_booking_window today slot_dt.1
    · rw [if_pos h2]
      exact ⟨rfl, fun e _ => ⟨rfl, rfl⟩⟩
    · rw [if_neg h2]
      cases hv : MLCacheSpec.alookup venue_id sys.venues with
      | none => exact ⟨rfl, fun e _ => ⟨rfl, rfl⟩⟩
      | some venue =>
        dsimp only
        by_cases h3 : ¬ acquire_ok
        · rw [if_pos h3]
          exact ⟨rfl, fun e _ => ⟨rfl, rfl⟩⟩
        · rw [if_neg h3]
          by_cases h4 : venue.available_tables slot_dt ≤ 0
          · rw [if_pos h4]
            dsimp only
            exact ⟨List.erase_cons_head _ _, fun e _ => ⟨rfl, rfl⟩⟩
          · rw [if_neg h4]
            cases hd : venue.decrement_table_for_slot slot_dt with
            | error e' =>
              dsimp only
              exact ⟨List.erase_cons_head _ _, fun e _ => ⟨rfl, rfl⟩⟩
            | ok venue' =>
              dsimp only
              refine ⟨List.erase_cons_head _ _, ?_⟩
              intro e he
              exact absurd he (by simp)

/-- C9 witness: a lock-acquisition timeout (`acquire_ok = false`) leaves the
held locks, the venue map, and the bookings untouched. -/
theorem book_table_atomic_witness :
    ((⟨[("v1", ⟨"v1", "N", "C", "A", "generic", [((1, 10), 2)]⟩)], [], 30,
          []⟩ : BookingSystem).book_table
        "u1" "v1" (1, 10) 2 1 "b1" (1, 5) false).2.held_locks = [] ∧
    ∀ e, ((⟨[("v1", ⟨"v1", "N", "C", "A", "generic", [((1, 10), 2)]⟩)], [], 30,
          []⟩ : BookingSystem).book_table
        "u1" "v1" (1, 10) 2 1 "b1" (1, 5) false).1 = .error e →
      ((⟨[("v1", ⟨"v1", "N", "C", "A", "generic", [((1, 10), 2)]⟩)], [], 30,
            []⟩ : BookingSystem).book_table
          "u1" "v1" (1, 10) 2 1 "b1" (1, 5) false).2.venues =
        [("v1", ⟨"v1", "N", "C", "A", "generic", [((1, 10), 2)]⟩)] ∧
      ((⟨[("v1", ⟨"v1", "N", "C", "A", "generic", [((1, 10), 2)]⟩)], [], 30,
            []⟩ : BookingSystem).book_table
          "u1" "v1" (1, 10) 2 1 "b1" (1, 5) false).2.bookings = [] :=
  book_table_atomic
    (⟨[("v1", ⟨"v1", "N", "C", "A", "generic", [((1, 10), 2)]⟩)], [], 30, []⟩ :
      BookingSystem) "u1" "v1" (1, 10) 2 1 "b1" (1, 5) false

end BookingSpec
